import Mathlib

/-!
Shallow embedding of the AI Career Roadmap Guide service (FastAPI/Python) and
verification of its specification claims.

The embedding models Python strings as `List Char` (`Str`); the relevant
string primitives (`str.strip`, `str.split('\n')`, `str.replace`, the regexes
`^\d+\.`, `^\d+\.$`, `^\d+\.\s` and the control-character classes used by the
code) are defined below, and the functions of `app/utils/validation.py`,
`app/utils/json_sanitizer.py`, `app/services/weekly_roadmap_generator.py` and
`app/api/endpoints/roadmap.py` are translated on top of them.
-/

namespace Roadmap

/-- Python strings, modelled as lists of characters. -/
abbrev Str := List Char

/-- Whitespace characters of Python's `str.strip()` and of the regex class `\s`:
space, tab, newline, carriage return, vertical tab, form feed. -/
def isPySpace (c : Char) : Bool :=
  c == ' ' || c == '\t' || c == '\n' || c == '\r' || c.val == 11 || c.val == 12

/-- The control characters removed by the sanitising substitution
`re.sub(r'[\x00-\x09\x0B\x0C\x0E-\x1F\x7F]', '', _)` (keeps `\n` = 0x0A and
`\r` = 0x0D). -/
def isCtrlRemoved (c : Char) : Bool :=
  c.val ≤ 9 || c.val == 11 || c.val == 12 || (14 ≤ c.val && c.val ≤ 31) || c.val == 127

/-- Python `str.strip()`: remove leading and trailing whitespace. -/
def pyStrip (s : Str) : Str :=
  ((s.dropWhile isPySpace).reverse.dropWhile isPySpace).reverse

/-- Python `str.split('\n')`. -/
def splitNL (s : Str) : List Str := s.splitOn '\n'

/-- Python `'\n'.join(...)`. -/
def joinNL (ls : List Str) : Str := ['\n'].intercalate ls

/-- Fuelled scanner implementing Python `str.replace`.  Every recursive call
consumes one unit of fuel and at least one character of the string, so any
fuel exceeding the string length computes the true replacement (see
`pyReplaceAux_fuel_irrel`). -/
def pyReplaceAux (pat rep : Str) : Nat → Str → Str
  | 0, s => s
  | fuel + 1, s =>
    if !pat.isEmpty && pat.isPrefixOf s then
      rep ++ pyReplaceAux pat rep fuel (s.drop pat.length)
    else
      match s with
      | [] => []
      | c :: cs => c :: pyReplaceAux pat rep fuel cs

/-- Python `str.replace(pat, rep)`: replace every non-overlapping occurrence,
scanning left to right. -/
def pyReplace (pat rep s : Str) : Str := pyReplaceAux pat rep (s.length + 1) s

/-- The character of a decimal digit `n ≤ 9`. -/
def digitCh (n : Nat) : Char := Char.ofNat (48 + n)

/-- Fuelled decimal rendering (any fuel exceeding the number suffices). -/
def natDigitsAux : Nat → Nat → Str
  | 0, _ => []
  | fuel + 1, n =>
    if n < 10 then [digitCh n]
    else natDigitsAux fuel (n / 10) ++ [digitCh (n % 10)]

/-- Decimal rendering of a natural number, as Python's `str(int)` /
`f"{i}"` produce it. -/
def natDigits (n : Nat) : Str := natDigitsAux (n + 1) n

/-- The regex `re.match(r'^\d+\.', s)`: one or more digits followed by a
period, at the start of the string. -/
def startsNum (s : Str) : Bool :=
  match s.head? with
  | some c => c.isDigit && ((s.dropWhile Char.isDigit).head? == some '.')
  | none => false

/-- The regex `re.match(r'^\d+\.$', s)`: the whole string is digits followed
by a period. -/
def isBareNum (s : Str) : Bool :=
  startsNum s && s.dropWhile Char.isDigit == ['.']

/-- The regex `re.match(r'^\d+\.\s', s)`: digits, a period, then a whitespace
character. -/
def matchesNumSpace (s : Str) : Bool :=
  startsNum s &&
    (match s.dropWhile Char.isDigit with
     | _ :: c :: _ => isPySpace c
     | _ => false)

/-! ## `app/utils/validation.py` -/

/-- The stripped non-blank lines of a string:
`[line.strip() for line in activity.split('\n') if line.strip()]`. -/
def strippedLines (s : Str) : List Str :=
  ((splitNL s).map pyStrip).filter (fun l => !l.isEmpty)

/-- `validate_activity_format` from `app/utils/validation.py`. -/
def validate_activity_format (activity : Str) : Bool :=
  if activity.isEmpty then false
  else
    let lines := strippedLines activity
    if lines.isEmpty then false
    else lines.all startsNum

/-- The possible runtime types of the `activity` value handed to
`format_activity`: a string, a list (the code joins the stripped, non-blank
items — stringified first when they are not all strings — with newlines), or
any other object, represented by its `str()` rendering. -/
inductive ActivityInput where
  | astr (s : Str)
  | alist (items : List Str)
  | aother (s : Str)
deriving DecidableEq

/-- The initial type coercion of `format_activity`. -/
def toActivityString : ActivityInput → Str
  | .astr s => s
  | .alist items => joinNL ((items.map pyStrip).filter (fun l => !l.isEmpty))
  | .aother s => s

/-- Line-ending normalisation (`.replace('\r\n', '\n').replace('\r', '\n')`)
followed by control-character removal; this exact sequence appears both in
`format_activity` (validation.py) and in `sanitize_json_string`
(json_sanitizer.py). -/
def normalizeEolCtrl (s : Str) : Str :=
  (pyReplace ['\r'] ['\n'] (pyReplace ['\r', '\n'] ['\n'] s)).filter
    (fun c => !isCtrlRemoved c)

/-- The first loop of the already-formatted branch of `format_activity`:
rebuilds the string from the stripped lines, prefixing a newline to every
numbered line except the first (by enumeration index) and appending a space
after bare `\d+\.` lines. -/
def firstLoopAux (i : Nat) : List Str → Str
  | [] => []
  | line :: rest =>
    let stripped := pyStrip line
    (if stripped.isEmpty then []
     else
       (if startsNum stripped && decide (0 < i) then '\n' :: stripped else stripped) ++
         (if isBareNum stripped then [' '] else [])) ++
      firstLoopAux (i + 1) rest

/-- The literal pattern `f"{i}. "`. -/
def numPat (j : Nat) : Str := natDigits j ++ ['.', ' ']

/-- The `for i in range(10, 0, -1): processed.replace(f"{i}. ", f"\n{i}. ")`
loop of the already-formatted branch. -/
def numPass (s : Str) : Str :=
  [10, 9, 8, 7, 6, 5, 4, 3, 2, 1].foldl
    (fun acc j => pyReplace (numPat j) ('\n' :: numPat j) acc) s

/-- `.replace("\n\n", "\n").lstrip("\n")` closing the already-formatted
branch. -/
def cleanupValid (s : Str) : Str :=
  (pyReplace ['\n', '\n'] ['\n'] s).dropWhile (· == '\n')

/-- The merge loop of the repair branch of `format_activity`: a line starting
with `\d+\.` opens a new step, any other line is appended (space-joined) to
the current step. -/
def mergeLines : List Str → Str → List Str
  | [], cur => if cur.isEmpty then [] else [cur]
  | line :: rest, cur =>
    if startsNum line then
      if cur.isEmpty then mergeLines rest line
      else cur :: mergeLines rest line
    else
      if cur.isEmpty then mergeLines rest line
      else mergeLines rest (cur ++ ' ' :: line)

/-- The numbering loop of the repair branch: lines that already carry a
`\d+\.` prefix are kept verbatim, the others receive `f"{counter}. "` with a
counter that increments only on those. -/
def numberLines (counter : Nat) : List Str → List Str
  | [] => []
  | line :: rest =>
    if startsNum line then line :: numberLines counter rest
    else (natDigits counter ++ '.' :: ' ' :: line) :: numberLines (counter + 1) rest

/-- `format_activity` from `app/utils/validation.py`. -/
def format_activity (a : ActivityInput) : Str :=
  let activity := normalizeEolCtrl (toActivityString a)
  if validate_activity_format activity then
    cleanupValid (numPass (firstLoopAux 0 (splitNL activity)))
  else
    joinNL (numberLines 1 (mergeLines (strippedLines activity) []))

/-! ## Data model (`app/models/weekly_roadmap.py`)

Dates are opaque to every claim under verification; they are modelled as
naturals. -/

structure WeeklyTask where
  task_name : Str
  resources : List Str
  time_slot : Str
  time_commitment : Str
  practice : Str
deriving DecidableEq

structure WeekPlan where
  week_number : Int
  tasks : List WeeklyTask
deriving DecidableEq

structure MonthlyRoadmap where
  user_id : Option Str
  persona_type : Str
  duration_months : Nat
  requested_month : Nat
  start_date : Nat
  end_date : Nat
  weeks : List WeekPlan
  overall_goals : List Str
deriving DecidableEq

/-- `MultiMonthRoadmap` as declared in `app/models/weekly_roadmap.py`.  The
source has the line `# combined_goals: List[str]  # Combined goals from all
months` *commented out*, so the pydantic model has no `combined_goals` field
and silently ignores that keyword argument at construction. -/
structure MultiMonthRoadmap where
  user_id : Option Str
  persona_type : Str
  total_months : Nat
  monthly_roadmaps : List MonthlyRoadmap
  start_date : Nat
  end_date : Nat
deriving DecidableEq

/-! ## `validate_monthly_roadmap` (`app/utils/validation.py`) -/

/-- The per-task body of `validate_monthly_roadmap`: a task with a non-empty
`practice` gets `format_activity` applied to it (`format_activity` is total,
so the exception fallback of the source is dead code); an empty `practice`
is skipped by the `if task ... and task.practice` truthiness test. -/
def formatTaskPractice (t : WeeklyTask) : WeeklyTask :=
  if t.practice.isEmpty then t
  else { t with practice := format_activity (.astr t.practice) }

/-- The body of `validate_monthly_roadmap` on an actual (non-`None`) roadmap:
a roadmap with an empty (falsy) `weeks` list is returned unchanged by the
early `return`; otherwise every task's `practice` is rewritten in place. -/
def validateRoadmapObj (r : MonthlyRoadmap) : MonthlyRoadmap :=
  if r.weeks.isEmpty then r
  else
    { r with weeks := r.weeks.map fun w => { w with tasks := w.tasks.map formatTaskPractice } }

/-- `validate_monthly_roadmap` from `app/utils/validation.py`, including the
`if not roadmap` early return for a `None` argument. -/
def validate_monthly_roadmap : Option MonthlyRoadmap → Option MonthlyRoadmap
  | none => none
  | some r => some (validateRoadmapObj r)

/-! ## `app/utils/json_sanitizer.py` -/

/-- The literal `'"activity":'`. -/
def activityKey : Str := "\"activity\":".toList

/-- Split a string at the first occurrence of `pat`, returning the part
before the occurrence and the part after it. -/
def findSub (pat : Str) : Str → Option (Str × Str)
  | [] => if pat.isEmpty then some ([], []) else none
  | c :: cs =>
    if pat.isPrefixOf (c :: cs) then some ([], (c :: cs).drop pat.length)
    else (findSub pat cs).map fun p => (c :: p.1, p.2)

/-- `'pat' in s` (Python substring containment). -/
def containsSub (pat s : Str) : Bool := (findSub pat s).isSome

/-- The escaping applied to a matched activity value in `fix_activity`:
`.replace('\\', '\\\\').replace('\n', '\\n').replace('"', '\\"')`. -/
def escActivity (t : Str) : Str :=
  pyReplace ['"'] ['\\', '"'] (pyReplace ['\n'] ['\\', 'n'] (pyReplace ['\\'] ['\\', '\\'] t))

/-- The lookahead `(?=",|"\s*})` of the activity-fixing regex. -/
def termAt (s : Str) : Bool :=
  match s with
  | '"' :: r => r.head? == some ',' || (r.dropWhile isPySpace).head? == some '}'
  | _ => false

/-- Lazy scan for the `(.*?)` group: the shortest split of the input whose
remainder satisfies the lookahead. -/
def scanTerm : Str → Option (Str × Str)
  | [] => none
  | c :: cs =>
    if termAt (c :: cs) then some ([], c :: cs)
    else (scanTerm cs).map fun p => (c :: p.1, p.2)

/-- The substitution `re.sub(r'"activity":\s*"(.*?)(?=",|"\s*})',
fix_activity, json_str, flags=re.DOTALL)`: at each occurrence of the literal
`"activity":`, skip whitespace, expect an opening quote, capture lazily up to
the lookahead, and emit `'"activity": "' + escaped-content`; scanning resumes
after the match.  `fuel` bounds the recursion (the callers pass a fuel larger
than the string length, which a match search can never exhaust since every
round consumes at least the key). -/
def fixActivities : Nat → Str → Str
  | 0, s => s
  | fuel + 1, s =>
    match findSub activityKey s with
    | none => s
    | some (pre, rest) =>
      match rest.dropWhile isPySpace with
      | '"' :: body =>
        match scanTerm body with
        | some (content, rem) =>
          pre ++ "\"activity\": \"".toList ++ escActivity content ++ fixActivities fuel rem
        | none => pre ++ activityKey ++ fixActivities fuel rest
      | _ => pre ++ activityKey ++ fixActivities fuel rest

/-- `sanitize_json_string` from `app/utils/json_sanitizer.py`. -/
def sanitize_json_string (json_str : Str) : Str :=
  let s := normalizeEolCtrl json_str
  fixActivities (s.length + 1) s

/-- One iteration of the line loop of `sanitize_line_by_line`, threading the
state `(result, activity_content, activity_buffer)`. -/
def lineByLineStep (st : List Str × Bool × Str) (line : Str) : List Str × Bool × Str :=
  let (result, act, buf) := st
  let stripped := pyStrip line
  if containsSub activityKey stripped then
    match findSub activityKey stripped with
    | some (before, after) =>
      let pre := before ++ "\"activity\": \"".toList
      if ['"'].isSuffixOf stripped && decide (stripped.count '"' > 3) then
        let content := pyStrip after
        if content.head? == some '"' && ['"'].isSuffixOf content then
          (result ++ [pre ++ pyReplace ['"'] ['\\', '"'] ((content.drop 1).dropLast) ++ ['"']],
           false, buf)
        else (result, true, content)
      else
        let content := pyStrip after
        let content := if content.head? == some '"' then content.drop 1 else content
        (result, true, content)
    | none => (result, act, buf)
  else if act then
    if ['"'].isSuffixOf stripped && !(['\\', '"'].isSuffixOf stripped) then
      let buf2 := buf ++ ' ' :: stripped.dropLast
      let buf3 := pyReplace ['\n'] ['\\', 'n'] (pyReplace ['"'] ['\\', '"'] buf2)
      (result ++ [buf3 ++ ['"']], false, [])
    else (result, true, buf ++ ' ' :: stripped)
  else (result ++ [stripped], act, buf)

/-- `sanitize_line_by_line` from `app/utils/json_sanitizer.py`. -/
def sanitize_line_by_line (json_str : Str) : Str :=
  joinNL ((splitNL json_str).foldl lineByLineStep ([], false, [])).1

/-- `safe_parse_json` from `app/utils/json_sanitizer.py`.  The standard-library
`json.loads` is not repository code; it is abstracted as a parameter `loads`
returning `none` exactly when `json.JSONDecodeError` would be raised, and the
parsed generic document type is abstracted as `Doc`. -/
def safe_parse_json {Doc : Type} (loads : Str → Option Doc) (json_str : Str) : Except Str Doc :=
  match loads json_str with
  | some d => .ok d
  | none =>
    match loads (sanitize_json_string json_str) with
    | some d => .ok d
    | none =>
      match loads (sanitize_line_by_line json_str) with
      | some d => .ok d
      | none => .error "Failed to parse JSON after multiple attempts".toList

/-! ## `app/services/weekly_roadmap_generator.py`

The parsed Gemini response is a JSON document; the service only inspects the
keys modelled below, where `none` stands for an absent key.  The Tavily web
search performed by `enrich_resources_with_web_search` is external I/O that
never raises (every failure is absorbed into an empty resource list), so the
week/quest processing is parameterised over it as a function
`enrich : Str → ActivityInput → List Str` from `(task_name, activity)` to the
resource URLs for the current month. -/

/-- A quest object of the parsed response. -/
structure QuestData where
  task_type : Option Str
  task_name : Option Str
  time_slot : Option Str
  time_commitment : Option Str
  activity : Option ActivityInput
deriving DecidableEq

/-- A week object of the parsed response. -/
structure WeekData where
  week_number : Option Int
  theme : Option Str
  quests : Option (List QuestData)
deriving DecidableEq

/-- The runtime shapes the service distinguishes for `overall_goals`: a flat
list, a mapping from category names to values that are themselves lists,
strings, or anything else, or any other shape. -/
inductive GoalVal where
  | vlist (l : List Str)
  | vstr (s : Str)
  | vother
deriving DecidableEq

inductive RawGoals where
  | rdict (items : List (Str × GoalVal))
  | rlist (l : List Str)
  | rother
deriving DecidableEq

/-- The keys of the parsed response that `generate_weekly_roadmap` reads. -/
structure ResponseData where
  weeks : Option (List WeekData)
  overall_goals : Option RawGoals
deriving DecidableEq

/-- The quest loop body: the five required fields are checked in order and a
missing one raises, caught by the per-quest `except`, dropping the quest;
otherwise the `WeeklyTask` is built with web resources and the formatted
activity. -/
def processQuest (enrich : Str → ActivityInput → List Str) (q : QuestData) :
    Option WeeklyTask :=
  match q.task_type, q.task_name, q.time_slot, q.time_commitment, q.activity with
  | some _, some name, some slot, some commit, some act =>
    some { task_name := name, resources := enrich name act, time_slot := slot,
           time_commitment := commit, practice := format_activity act }
  | _, _, _, _, _ => none

/-- The week loop body: the three required fields are checked in order and a
missing one raises, caught by the per-week `except`, dropping the week; a
week whose quests all fail also raises (`No valid quests`) and is dropped. -/
def processWeek (enrich : Str → ActivityInput → List Str) (w : WeekData) :
    Option WeekPlan :=
  match w.week_number, w.theme, w.quests with
  | some n, some _, some qs =>
    let tasks := qs.filterMap (processQuest enrich)
    if tasks.isEmpty then none else some { week_number := n, tasks := tasks }
  | _, _, _ => none

/-- The `for week_data in response_data["weeks"]` loop with its
absorb-and-continue `except`. -/
def processWeeks (enrich : Str → ActivityInput → List Str) (ws : List WeekData) :
    List WeekPlan :=
  ws.filterMap (processWeek enrich)

/-- The `overall_goals` normalisation of `generate_weekly_roadmap` (lines
178–196): a dict is flattened in iteration order, list-valued categories
extend the result, string-valued categories append `f"{goal_type}: {goals}"`,
other values are skipped; a list is used as-is; anything else becomes `[]`. -/
def normalizeGoals : RawGoals → List Str
  | .rdict items =>
    items.foldl
      (fun acc kv =>
        match kv.2 with
        | .vlist l => acc ++ l
        | .vstr s => acc ++ [kv.1 ++ ':' :: ' ' :: s]
        | .vother => acc)
      []
  | .rlist l => l
  | .rother => []

/-- The month-level body of `generate_weekly_roadmap` after the Gemini call:
missing `weeks`/`overall_goals` raise immediately; after the week loop an
empty surviving list raises; otherwise the roadmap is built, post-validated
and returned.  The raised exceptions are re-raised (wrapped) by the outer
handler, modelled by `Except.error`. -/
def generateMonth (enrich : Str → ActivityInput → List Str) (user_id : Option Str)
    (persona_type : Str) (duration_months current_month : Nat)
    (start_date end_date : Nat) (rd : ResponseData) : Except Str MonthlyRoadmap :=
  match rd.weeks, rd.overall_goals with
  | some ws, some gs =>
    let processed := processWeeks enrich ws
    if processed.isEmpty then .error "No valid weeks could be processed".toList
    else
      .ok (validateRoadmapObj
        { user_id := user_id, persona_type := persona_type,
          duration_months := duration_months, requested_month := current_month,
          start_date := start_date, end_date := end_date, weeks := processed,
          overall_goals := normalizeGoals gs })
  | _, _ => .error "Invalid response structure: missing required fields".toList

/-- The runtime type of the `practice` argument of
`enrich_resources_with_web_search`: a string, a list, or some other object
(carrying its `str()` rendering and its Python truthiness). -/
inductive PracticeVal where
  | pstr (s : Str)
  | plist (l : List Str)
  | pother (s : Str) (truthy : Bool)
deriving DecidableEq

/-- The difficulty tag chosen from `current_month`. -/
def difficultyLevel (current_month : Nat) : Str :=
  if current_month > 1 then
    if current_month ≤ 2 then "intermediate".toList
    else if current_month ≤ 4 then "advanced".toList
    else "expert".toList
  else []

/-- `if isinstance(practice, list): practice = practice[0] if len(practice) >
0 else ""`. -/
def coercePractice : PracticeVal → PracticeVal
  | .plist [] => .pstr []
  | .plist (h :: _) => .pstr h
  | p => p

/-- The `truncated_practice` computation of
`enrich_resources_with_web_search` (applied after the list coercion, so the
`plist` case is unreachable). -/
def truncPractice : PracticeVal → Str
  | .pstr s =>
    if !s.isEmpty && containsSub "1.".toList s then
      let first_step :=
        if containsSub "2.".toList s then ((findSub "2.".toList s).map Prod.fst).getD s else s
      let first_step :=
        if "1.".toList.isPrefixOf first_step then pyStrip (first_step.drop 2) else first_step
      first_step.take 100
    else if !s.isEmpty then s.take 100
    else []
  | .plist _ => []
  | .pother s truthy => if truthy then s.take 100 else []

/-- The search-query construction of `enrich_resources_with_web_search`
(lines 249–276): truncate the task name to 80 characters, the practice
extract to 100, build the query, and hard-cap it at 390 characters.  The
resulting string is passed verbatim to `tavily_client.search`. -/
def buildSearchQuery (task_name : Str) (practice : PracticeVal) (current_month : Nat) : Str :=
  let difficulty := difficultyLevel current_month
  let practiceC := coercePractice practice
  let truncated_task := task_name.take 80
  let truncated_practice := truncPractice practiceC
  let q1 := pyStrip (truncated_task ++ ' ' :: difficulty)
  let q2 :=
    if q1.length < 300 then pyStrip (truncated_task ++ ':' :: ' ' :: truncated_practice ++ ' ' :: difficulty)
    else q1
  if q2.length > 390 then q2.take 390 else q2

/-! ## `app/api/endpoints/roadmap.py` (multi-month aggregation) -/

/-- The duplicate-removal loop of the endpoint (`seen` set plus ordered
append; the accumulated list contains exactly the seen goals). -/
def dedupGoals (goals : List Str) : List Str :=
  goals.foldl (fun acc g => if g ∈ acc then acc else acc ++ [g]) []

/-- The `MultiMonthRoadmap(...)` constructor call of the endpoint, including
the `combined_goals=unique_goals` keyword argument.  Because the model field
is commented out, pydantic silently ignores that argument: it does not occur
in the constructed value. -/
def mkMultiMonthRoadmap (user_id : Option Str) (persona_type : Str)
    (total_months : Nat) (monthly_roadmaps : List MonthlyRoadmap)
    (_combined_goals : List Str) (start_date end_date : Nat) : MultiMonthRoadmap :=
  { user_id := user_id, persona_type := persona_type, total_months := total_months,
    monthly_roadmaps := monthly_roadmaps, start_date := start_date, end_date := end_date }

/-- The multi-month branch of the `/generate` endpoint (lines 79–106): each
generated month is re-validated, the goals are concatenated and deduplicated
preserving first occurrence, and the response is built with the first month's
start date and the last month's end date.  The endpoint only reaches this
code with at least one generated month (`duration_months > 1`); the fallback
dates 0 model the otherwise-raised `IndexError` and are never hit under that
precondition. -/
def endpointMultiMonth (user_id : Option Str) (persona_type : Str)
    (duration_months : Nat) (monthly_roadmaps : List MonthlyRoadmap) : MultiMonthRoadmap :=
  let validated := monthly_roadmaps.map validateRoadmapObj
  let combined_goals := validated.foldl (fun acc r => acc ++ r.overall_goals) []
  let unique_goals := dedupGoals combined_goals
  match validated.head?, validated.getLast? with
  | some first, some last =>
    mkMultiMonthRoadmap user_id persona_type duration_months validated unique_goals
      first.start_date last.end_date
  | _, _ =>
    mkMultiMonthRoadmap user_id persona_type duration_months validated unique_goals 0 0

/-! ## Spec-side predicates

These formalise the vocabulary of the specification claims (normalised
activity strings); they are used to state the claims, while the behaviour is
always computed by the source-translated functions above. -/

/-- Numeric value of a digit string. -/
def digitsToNat (ds : Str) : Nat := ds.foldl (fun a c => a * 10 + (c.toNat - 48)) 0

/-- The step number of a line matching `^\d+\.\s`. -/
def leadNum (l : Str) : Option Nat :=
  if matchesNumSpace l then some (digitsToNat (l.takeWhile Char.isDigit)) else none

/-- Every line is non-blank, matches `^\d+\.\s`, and the step numbers ascend
by exactly one starting from `n`. -/
def ascendingFrom (n : Nat) : List Str → Bool
  | [] => true
  | l :: ls => !l.isEmpty && matchesNumSpace l && (leadNum l == some n) && ascendingFrom (n + 1) ls

/-- The output invariant asserted by the spec for the Activity Normalizer:
the newline-joined string has no blank lines, every line matches `^\d+\.\s`,
and the step numbers ascend by exactly 1 starting from 1 (hence no duplicate
numbers). -/
def normalizedInvariant (out : Str) : Bool := ascendingFrom 1 (splitNL out)

/-- A normalised activity string in the sense of claim C4, presented by the
list of its step texts: line `k` is `f"{k}. {t}"`.  `renderFrom i ts` renders
steps `i, i+1, …`. -/
def stepLine (i : Nat) (t : Str) : Str := natDigits i ++ '.' :: ' ' :: t

def renderFrom (i : Nat) : List Str → Str
  | [] => []
  | [t] => stepLine i t
  | t :: t' :: ts => stepLine i t ++ '\n' :: renderFrom (i + 1) (t' :: ts)

/-- `renderSteps ts` is the normalised activity string with step texts `ts`:
`"1. t₁\n2. t₂\n…"`. -/
def renderSteps (ts : List Str) : Str := renderFrom 1 ts

/-- A step text that keeps a normalised activity string inside the domain on
which the already-formatted branch of `format_activity` is the identity: the
text is non-empty, free of control characters (tabs included), carriage
returns and newlines, carries no leading or trailing whitespace, and does not
contain any of the literal substrings `"1. "` … `"10. "` that the
renumbering pass of the code splits on. -/
def cleanText (t : Str) : Prop :=
  t ≠ [] ∧ (∀ c ∈ t, isCtrlRemoved c = false ∧ c ≠ '\n' ∧ c ≠ '\r') ∧
    pyStrip t = t ∧ ∀ j, 1 ≤ j → j ≤ 10 → ¬ numPat j <:+: t

instance : DecidablePred cleanText := fun t => by
  unfold cleanText
  have : (∀ j, 1 ≤ j → j ≤ 10 → ¬ numPat j <:+: t) ↔
      ∀ j ∈ List.range 11, 1 ≤ j → ¬ numPat j <:+: t := by
    constructor
    · intro h j hj h1
      exact h j h1 (by simpa using Nat.lt_succ_iff.mp (List.mem_range.mp hj))
    · intro h j h1 h10
      exact h j (List.mem_range.mpr (Nat.lt_succ_iff.mpr h10)) h1
  rw [this]
  infer_instance

/-- The lines of a normalised activity string, numbered from `i`. -/
def linesOf (i : Nat) : List Str → List Str
  | [] => []
  | t :: ts => stepLine i t :: linesOf (i + 1) ts

/-- Intermediate state of the renumbering loop of the already-formatted
branch on a rendered step list: after the passes for `10, 9, …, j+1`, every
line whose number exceeds `j` carries the extra newline inserted by its
pass. -/
def stateFrom (j i : Nat) : List Str → Str
  | [] => []
  | [t] => (if j < i then ['\n'] else []) ++ stepLine i t
  | t :: t' :: ts =>
    (if j < i then ['\n'] else []) ++ stepLine i t ++ '\n' :: stateFrom j (i + 1) (t' :: ts)

/-- Tail of a rendered step list with single newline separators. -/
def singled (i : Nat) : List Str → Str
  | [] => []
  | t :: ts => '\n' :: stepLine i t ++ singled (i + 1) ts

/-- Tail of the fully-marked state, with doubled newline separators. -/
def doubled (i : Nat) : List Str → Str
  | [] => []
  | t :: ts => '\n' :: '\n' :: stepLine i t ++ doubled (i + 1) ts

/-- A well-formed quest used by the concrete claim instances. -/
def demoQuest : QuestData :=
  { task_type := some "Learn".toList, task_name := some "T".toList,
    time_slot := some "9:00 AM".toList, time_commitment := some "1h/week".toList,
    activity := some (.astr "1. a".toList) }

/-- A well-formed week with number `n`. -/
def demoWeek (n : Int) : WeekData :=
  { week_number := some n, theme := some "Theme".toList, quests := some [demoQuest] }

/-- A week with number `n` that is missing its `theme` field. -/
def demoWeekNoTheme (n : Int) : WeekData :=
  { week_number := some n, theme := none, quests := some [demoQuest] }

/-- A trivial resource-enrichment function for concrete instances. -/
def noEnrich : Str → ActivityInput → List Str := fun _ _ => []

/-- A roadmap with no weeks, used by the concrete claim instances. -/
def emptyWeeksRoadmap : MonthlyRoadmap :=
  { user_id := none, persona_type := "INTJ".toList, duration_months := 1,
    requested_month := 1, start_date := 0, end_date := 30, weeks := [],
    overall_goals := [] }

/-! # Theorems -/

/-- The per-entry contribution of a dict-shaped `overall_goals` entry. -/
theorem goalsFoldl_eq_flatMap (items : List (Str × GoalVal)) (acc : List Str) :
    items.foldl
        (fun acc kv =>
          match kv.2 with
          | .vlist l => acc ++ l
          | .vstr s => acc ++ [kv.1 ++ ':' :: ' ' :: s]
          | .vother => acc) acc =
      acc ++ items.flatMap fun kv =>
        match kv.2 with
        | .vlist l => l
        | .vstr s => [kv.1 ++ ':' :: ' ' :: s]
        | .vother => [] := by
  induction items generalizing acc with
  | nil => simp
  | cons kv rest ih =>
    simp only [List.foldl_cons, List.flatMap_cons, ih]
    cases kv.2 <;> simp

/-- C6: `overall_goals` normalisation.  A mapping is flattened in mapping
order — a sequence-valued category contributes its elements as-is, a
string-valued category contributes the single element `"<category>: <value>"`
(values of any other shape contribute nothing) — a flat sequence is used
as-is, any other shape yields the empty sequence without failing; and the
concrete example `{"short_term": ["a","b"], "long_term": "c"}` normalises to
`["a", "b", "long_term: c"]` in that order. -/
theorem c6_goals_normalization :
    (∀ items : List (Str × GoalVal),
        normalizeGoals (.rdict items) =
          items.flatMap fun kv =>
            match kv.2 with
            | .vlist l => l
            | .vstr s => [kv.1 ++ ':' :: ' ' :: s]
            | .vother => []) ∧
    (∀ l : List Str, normalizeGoals (.rlist l) = l) ∧
    normalizeGoals .rother = [] ∧
    normalizeGoals
        (.rdict [("short_term".toList, .vlist ["a".toList, "b".toList]),
                 ("long_term".toList, .vstr "c".toList)]) =
      ["a".toList, "b".toList, "long_term: c".toList] := by
  refine ⟨fun items => goalsFoldl_eq_flatMap items [], fun l => rfl, rfl, by decide⟩

/-- C9: the query string passed to the search provider by the
resource-enrichment step is at most 390 characters long, for every task
name, practice value and month. -/
theorem c9_search_query_cap (task_name : Str) (practice : PracticeVal) (current_month : Nat) :
    (buildSearchQuery task_name practice current_month).length ≤ 390 := by
  simp only [buildSearchQuery]
  split <;> split <;> (try simp only [List.length_take]) <;> omega

/-- C5: round-trip short-circuit of the resilient JSON parser.  A text the
direct parse accepts is returned exactly as that parse produced it (the
sanitising and line-oriented stages are not consulted), and the parser
fails only when the direct, sanitised and line-by-line parses have all
failed. -/
theorem c5_safe_parse_json_shortcircuit :
    (∀ (Doc : Type) (loads : Str → Option Doc) (s : Str) (d : Doc),
        loads s = some d → safe_parse_json loads s = .ok d) ∧
    (∀ (Doc : Type) (loads : Str → Option Doc) (s e : Str),
        safe_parse_json loads s = .error e →
          loads s = none ∧ loads (sanitize_json_string s) = none ∧
            loads (sanitize_line_by_line s) = none) := by
  constructor
  · intro Doc loads s d h
    simp [safe_parse_json, h]
  · intro Doc loads s e h
    unfold safe_parse_json at h
    cases h1 : loads s <;> rw [h1] at h
    · cases h2 : loads (sanitize_json_string s) <;> rw [h2] at h
      · cases h3 : loads (sanitize_line_by_line s) <;> rw [h3] at h
        · exact ⟨rfl, rfl, rfl⟩
        · cases h
      · cases h
    · cases h

/-- C5 witness: the short-circuit and the exhaustive-failure direction at
concrete parse functions. -/
theorem c5_witness :
    safe_parse_json (fun _ => some 42) "ok".toList = Except.ok 42 ∧
    ((fun _ : Str => (none : Option Nat)) "bad".toList = none ∧
      (fun _ : Str => (none : Option Nat)) (sanitize_json_string "bad".toList) = none ∧
      (fun _ : Str => (none : Option Nat)) (sanitize_line_by_line "bad".toList) = none) :=
  ⟨c5_safe_parse_json_shortcircuit.1 Nat (fun _ => some 42) "ok".toList 42 rfl,
   c5_safe_parse_json_shortcircuit.2 Nat (fun _ => none) "bad".toList
     "Failed to parse JSON after multiple attempts".toList rfl⟩

/-- C8 counterexample: on the input `"Do the thing. Then 2. do another"` the
normaliser returns the single line `"1. Do the thing. Then 2. do another"`,
not a two-line result — the repair branch never splits an embedded `"2."`
out of a line. -/
theorem c8_counterexample :
    format_activity (.astr "Do the thing. Then 2. do another".toList) =
      "1. Do the thing. Then 2. do another".toList ∧
    (splitNL (format_activity (.astr "Do the thing. Then 2. do another".toList))).length ≠ 2 := by
  decide

/-- C8 as amended: the input `"Do the thing. Then 2. do another"` is repaired
to the single line `"1. Do the thing. Then 2. do another"` — one step,
numbered 1, satisfying the no-skip/no-duplicate numbering invariant. -/
theorem c8_numbering_repair :
    format_activity (.astr "Do the thing. Then 2. do another".toList) =
      "1. Do the thing. Then 2. do another".toList ∧
    (splitNL (format_activity (.astr "Do the thing. Then 2. do another".toList))).length = 1 ∧
    normalizedInvariant (format_activity (.astr "Do the thing. Then 2. do another".toList)) = true := by
  decide

/-- C3 counterexample: the already-formatted input `"11. x\n11. y"` is
rewritten to `"1\n1. x\n1\n1. y"`, whose lines `"1"` match neither
`^\d+\.\s` nor ascend from 1 without duplicates — the claimed output
invariant fails. -/
theorem c3_counterexample :
    format_activity (.astr "11. x\n11. y".toList) = "1\n1. x\n1\n1. y".toList ∧
    normalizedInvariant (format_activity (.astr "11. x\n11. y".toList)) = false := by
  decide

/-- Pointwise relation between a list and its map. -/
theorem list_forall2_map {α : Type} (R : α → α → Prop) (f : α → α) (l : List α)
    (h : ∀ x ∈ l, R x (f x)) : List.Forall₂ R l (l.map f) := by
  induction l with
  | nil => exact List.Forall₂.nil
  | cons x xs ih =>
    exact List.Forall₂.cons (h x (List.mem_cons_self x xs))
      (ih fun y hy => h y (List.mem_cons_of_mem x hy))

/-- C10: `validate_monthly_roadmap` is total (never raises) and returns the
roadmap it was given: `None` and empty-week roadmaps unchanged, and otherwise
the only field it may rewrite is each task's `practice`; week numbers, task
names, resources, time slots, time commitments, dates, persona type and
overall goals are left unchanged. -/
theorem c10_validate_frame :
    validate_monthly_roadmap none = none ∧
    (∀ r : MonthlyRoadmap, r.weeks = [] → validate_monthly_roadmap (some r) = some r) ∧
    (∀ r : MonthlyRoadmap, ∃ r',
      validate_monthly_roadmap (some r) = some r' ∧
      r'.user_id = r.user_id ∧ r'.persona_type = r.persona_type ∧
      r'.duration_months = r.duration_months ∧ r'.requested_month = r.requested_month ∧
      r'.start_date = r.start_date ∧ r'.end_date = r.end_date ∧
      r'.overall_goals = r.overall_goals ∧
      List.Forall₂ (fun w w' =>
          w'.week_number = w.week_number ∧
          List.Forall₂ (fun t t' =>
              t'.task_name = t.task_name ∧ t'.resources = t.resources ∧
              t'.time_slot = t.time_slot ∧ t'.time_commitment = t.time_commitment ∧
              t'.practice =
                if t.practice.isEmpty then t.practice
                else format_activity (.astr t.practice))
            w.tasks w'.tasks)
        r.weeks r'.weeks) := by
  refine ⟨rfl, ?_, ?_⟩
  · intro r h
    simp [validate_monthly_roadmap, validateRoadmapObj, h]
  · intro r
    refine ⟨validateRoadmapObj r, rfl, ?_⟩
    unfold validateRoadmapObj
    by_cases h : r.weeks.isEmpty
    · rw [List.isEmpty_iff] at h
      simp [h]
    · rw [if_neg h]
      refine ⟨rfl, rfl, rfl, rfl, rfl, rfl, rfl, ?_⟩
      refine list_forall2_map _ _ _ fun w _ => ⟨rfl, ?_⟩
      refine list_forall2_map _ _ _ fun t _ => ⟨?_, ?_, ?_, ?_, ?_⟩ <;>
        simp [formatTaskPractice] <;> split <;> simp_all

/-- C10 witness: a roadmap with an empty `weeks` list is returned
unchanged. -/
theorem c10_witness :
    validate_monthly_roadmap (some emptyWeeksRoadmap) = some emptyWeeksRoadmap :=
  c10_validate_frame.2.1 emptyWeeksRoadmap rfl

/-- Post-validation does not change a roadmap's dates. -/
theorem validateRoadmapObj_dates (r : MonthlyRoadmap) :
    (validateRoadmapObj r).start_date = r.start_date ∧
      (validateRoadmapObj r).end_date = r.end_date := by
  unfold validateRoadmapObj
  split <;> exact ⟨rfl, rfl⟩

/-- C7 (code-bug evidence): the endpoint's deduplication does combine
`["a","b"]` and `["b","c"]` into `["a","b","c"]`, and the multi-month
response does take the first month's start date and the last month's end
date; but the `MultiMonthRoadmap(...)` construction is insensitive to the
`combined_goals` keyword it is passed — the model field is commented out, so
pydantic drops the argument and the returned object carries no
`combined_goals` at all. -/
theorem c7_code_evaluation :
    dedupGoals (["a".toList, "b".toList] ++ ["b".toList, "c".toList]) =
      ["a".toList, "b".toList, "c".toList] ∧
    (∀ u p t m g g' s e, mkMultiMonthRoadmap u p t m g s e = mkMultiMonthRoadmap u p t m g' s e) ∧
    (∀ u p d (r1 r2 : MonthlyRoadmap),
      (endpointMultiMonth u p d [r1, r2]).start_date = r1.start_date ∧
      (endpointMultiMonth u p d [r1, r2]).end_date = r2.end_date ∧
      (endpointMultiMonth u p d [r1, r2]).monthly_roadmaps =
        [validateRoadmapObj r1, validateRoadmapObj r2]) := by
  refine ⟨by decide, fun u p t m g g' s e => rfl, ?_⟩
  intro u p d r1 r2
  simp only [endpointMultiMonth, List.map_cons, List.map_nil, List.head?_cons,
    List.getLast?_cons_cons, List.getLast?_singleton, mkMultiMonthRoadmap]
  exact ⟨(validateRoadmapObj_dates r1).1, (validateRoadmapObj_dates r2).2, trivial⟩

/-- A week missing any of its three required fields is dropped. -/
theorem processWeek_none_of_missing (enrich : Str → ActivityInput → List Str)
    (w : WeekData) (h : w.week_number = none ∨ w.theme = none ∨ w.quests = none) :
    processWeek enrich w = none := by
  obtain ⟨wn, th, qs⟩ := w
  cases wn <;> cases th <;> cases qs <;> simp_all [processWeek]

/-- Dropping a failed week leaves the processing of the remaining weeks
untouched. -/
theorem processWeeks_drop (enrich : Str → ActivityInput → List Str)
    (ws₁ ws₂ : List WeekData) (w : WeekData) (h : processWeek enrich w = none) :
    processWeeks enrich (ws₁ ++ w :: ws₂) = processWeeks enrich (ws₁ ++ ws₂) := by
  simp [processWeeks, List.filterMap_append, List.filterMap_cons, h]

/-- A surviving week keeps its original `week_number`. -/
theorem processWeek_week_number (enrich : Str → ActivityInput → List Str)
    (w : WeekData) (wp : WeekPlan) (h : processWeek enrich w = some wp) :
    w.week_number = some wp.week_number := by
  obtain ⟨wn, th, qs⟩ := w
  cases wn <;> cases th <;> cases qs <;> simp_all [processWeek]
  obtain ⟨-, h2⟩ := h
  rw [← h2]

/-- The surviving week numbers form a sublist (same order) of the input week
numbers. -/
theorem processWeeks_week_numbers_sublist (enrich : Str → ActivityInput → List Str)
    (ws : List WeekData) :
    ((processWeeks enrich ws).map WeekPlan.week_number).Sublist
      (ws.filterMap WeekData.week_number) := by
  induction ws with
  | nil => simp [processWeeks]
  | cons w ws ih =>
    simp only [processWeeks, List.filterMap_cons] at *
    cases hw : processWeek enrich w with
    | none =>
      cases hn : w.week_number with
      | none => simpa using ih
      | some n =>
        simp only [hn]
        exact ih.cons n
    | some wp =>
      have hn := processWeek_week_number enrich w wp hw
      simp only [hn, List.map_cons]
      exact ih.cons₂ wp.week_number

/-- C1: partial containment at the week level.  A week missing any of
`week_number`, `theme`, `quests` is dropped and processing continues with
the remaining weeks; survivors appear in their original order with their
original `week_number` values; and the concrete 4-week document whose third
week lacks `theme` validates to exactly the weeks numbered 1, 2, 4. -/
theorem c1_week_partial_containment :
    (∀ (enrich : Str → ActivityInput → List Str) (w : WeekData),
        w.week_number = none ∨ w.theme = none ∨ w.quests = none →
          processWeek enrich w = none) ∧
    (∀ (enrich : Str → ActivityInput → List Str) (ws₁ ws₂ : List WeekData) (w : WeekData),
        processWeek enrich w = none →
          processWeeks enrich (ws₁ ++ w :: ws₂) = processWeeks enrich (ws₁ ++ ws₂)) ∧
    (∀ (enrich : Str → ActivityInput → List Str) (w : WeekData) (wp : WeekPlan),
        processWeek enrich w = some wp → w.week_number = some wp.week_number) ∧
    (∀ (enrich : Str → ActivityInput → List Str) (ws : List WeekData),
        ((processWeeks enrich ws).map WeekPlan.week_number).Sublist
          (ws.filterMap WeekData.week_number)) ∧
    (processWeeks noEnrich [demoWeek 1, demoWeek 2, demoWeekNoTheme 3, demoWeek 4]).map
        WeekPlan.week_number = [1, 2, 4] :=
  ⟨processWeek_none_of_missing, processWeeks_drop, processWeek_week_number,
   processWeeks_week_numbers_sublist, by decide⟩

/-- C1 witness: the general parts applied to the concrete malformed third
week. -/
theorem c1_witness :
    processWeek noEnrich (demoWeekNoTheme 3) = none ∧
    processWeeks noEnrich
        ([demoWeek 1, demoWeek 2] ++ demoWeekNoTheme 3 :: [demoWeek 4]) =
      processWeeks noEnrich ([demoWeek 1, demoWeek 2] ++ [demoWeek 4]) :=
  ⟨c1_week_partial_containment.1 noEnrich (demoWeekNoTheme 3) (Or.inr (Or.inl rfl)),
   c1_week_partial_containment.2.1 noEnrich [demoWeek 1, demoWeek 2] [demoWeek 4]
     (demoWeekNoTheme 3)
     (c1_week_partial_containment.1 noEnrich (demoWeekNoTheme 3) (Or.inr (Or.inl rfl)))⟩

/-- C2: fatal escalation at the month level.  Month generation fails (and
returns no partial roadmap) exactly when `weeks` is missing, or
`overall_goals` is missing, or the surviving week sequence is empty — in
particular month-level failures are never absorbed into a partial result. -/
theorem c2_month_fatal_escalation
    (enrich : Str → ActivityInput → List Str) (u : Option Str) (p : Str)
    (dm cm sd ed : Nat) (rd : ResponseData) :
    (∃ e, generateMonth enrich u p dm cm sd ed rd = .error e) ↔
      (rd.weeks = none ∨ rd.overall_goals = none ∨
        ∃ ws, rd.weeks = some ws ∧ processWeeks enrich ws = []) := by
  obtain ⟨ws?, gs?⟩ := rd
  cases ws? with
  | none => simp [generateMonth]
  | some ws =>
    cases gs? with
    | none => simp [generateMonth]
    | some gs =>
      simp only [generateMonth]
      split
      · rename_i hempty
        simp only [List.isEmpty_iff] at hempty
        simp [hempty]
      · rename_i hne
        simp only [List.isEmpty_iff] at hne
        simp [hne]

/-! ## String lemmas for the activity-normaliser claims -/

/-- Elements produced by `splitOnP` contain no character satisfying the
predicate. -/
theorem mem_splitOnP_not {p : Char → Bool} :
    ∀ {s l : Str}, l ∈ s.splitOnP p → ∀ c ∈ l, p c = false := by
  intro s
  induction s with
  | nil =>
    intro l hl c hc
    simp [List.splitOnP_nil] at hl
    subst hl
    cases hc
  | cons x xs ih =>
    intro l hl c hc
    rw [List.splitOnP_cons] at hl
    by_cases hx : p x
    · rw [if_pos hx] at hl
      rcases List.mem_cons.mp hl with h | h
      · subst h; cases hc
      · exact ih h c hc
    · rw [if_neg hx] at hl
      cases hsp : xs.splitOnP p with
      | nil => exact absurd hsp (List.splitOnP_ne_nil p xs)
      | cons hd tl =>
        rw [hsp, List.modifyHead_cons] at hl
        rcases List.mem_cons.mp hl with h | h
        · subst h
          rcases List.mem_cons.mp hc with h | h
          · subst h; simpa using hx
          · exact ih (hsp ▸ List.mem_cons_self hd tl) c h
        · exact ih (hsp ▸ List.mem_cons_of_mem hd h) c hc

/-- Pieces of `str.split('\n')` contain no newline. -/
theorem splitNL_not_mem {s l : Str} (h : l ∈ splitNL s) : '\n' ∉ l := by
  intro hc
  have := mem_splitOnP_not (p := (· == '\n')) h '\n' hc
  simp at this

/-- Stripping only removes characters. -/
theorem mem_pyStrip {c : Char} {s : Str} (h : c ∈ pyStrip s) : c ∈ s := by
  unfold pyStrip at h
  rw [List.mem_reverse] at h
  have h1 := (List.dropWhile_sublist (l := (s.dropWhile isPySpace).reverse)
    (p := isPySpace)).subset h
  rw [List.mem_reverse] at h1
  exact (List.dropWhile_sublist (l := s) (p := isPySpace)).subset h1

/-- The stripped non-blank lines of a string are non-empty and
newline-free. -/
theorem strippedLines_good {s l : Str} (h : l ∈ strippedLines s) :
    l ≠ [] ∧ '\n' ∉ l := by
  unfold strippedLines at h
  obtain ⟨h1, h2⟩ := List.mem_filter.mp h
  obtain ⟨piece, hp, rfl⟩ := List.mem_map.mp h1
  refine ⟨by simpa using h2, fun hc => ?_⟩
  exact splitNL_not_mem hp (mem_pyStrip hc)

/-- The merge loop preserves non-empty newline-free lines. -/
theorem mergeLines_good :
    ∀ (ls : List Str) (cur : Str), (∀ l ∈ ls, l ≠ [] ∧ '\n' ∉ l) →
      (cur = [] ∨ (cur ≠ [] ∧ '\n' ∉ cur)) →
      ∀ m ∈ mergeLines ls cur, m ≠ [] ∧ '\n' ∉ m := by
  intro ls
  induction ls with
  | nil =>
    intro cur _ hcur m hm
    unfold mergeLines at hm
    split at hm
    · cases hm
    · rename_i hne
      rcases List.mem_singleton.mp hm with rfl
      rcases hcur with rfl | h
      · simp at hne
      · exact h
  | cons line rest ih =>
    intro cur hls hcur m hm
    have hline := hls line (List.mem_cons_self line rest)
    have hrest : ∀ l ∈ rest, l ≠ [] ∧ '\n' ∉ l :=
      fun l hl => hls l (List.mem_cons_of_mem line hl)
    unfold mergeLines at hm
    split at hm
    · split at hm
      · exact ih line hrest (Or.inr hline) m hm
      · rcases List.mem_cons.mp hm with rfl | hm'
        · rename_i hne
          rcases hcur with rfl | h
          · simp at hne
          · exact h
        · exact ih line hrest (Or.inr hline) m hm'
    · split at hm
      · exact ih line hrest (Or.inr hline) m hm
      · refine ih (cur ++ ' ' :: line) hrest (Or.inr ⟨by simp, fun hc => ?_⟩) m hm
        rcases List.mem_append.mp hc with hc | hc
        · rcases hcur with rfl | h
          · cases hc
          · exact h.2 hc
        · rcases List.mem_cons.mp hc with hc | hc
          · cases hc
          · exact hline.2 hc

/-- Fuel irrelevance for the decimal renderer. -/
theorem natDigitsAux_fuel_irrel :
    ∀ (fuel fuel' n : Nat), n < fuel → n < fuel' →
      natDigitsAux fuel n = natDigitsAux fuel' n := by
  intro fuel
  induction fuel with
  | zero => intro fuel' n h; omega
  | succ f ihf =>
    intro fuel' n h h'
    cases fuel' with
    | zero => omega
    | succ f' =>
      show (if n < 10 then _ else _) = (if n < 10 then _ else _)
      by_cases h10 : n < 10
      · rw [if_pos h10, if_pos h10]
      · rw [if_neg h10, if_neg h10]
        have hlt : n / 10 < n := Nat.div_lt_self (by omega) (by omega)
        rw [ihf f' (n / 10) (by omega) (by omega)]

/-- Unfolding equation for `natDigits`. -/
theorem natDigits_eq (n : Nat) :
    natDigits n =
      if n < 10 then [digitCh n] else natDigits (n / 10) ++ [digitCh (n % 10)] := by
  show natDigitsAux (n + 1) n = _
  show (if n < 10 then _ else _) = _
  by_cases h10 : n < 10
  · rw [if_pos h10, if_pos h10]
  · rw [if_neg h10, if_neg h10]
    have hlt : n / 10 < n := Nat.div_lt_self (by omega) (by omega)
    rw [natDigitsAux_fuel_irrel n (n / 10 + 1) (n / 10) (by omega) (by omega)]
    rfl

theorem digitCh_isDigit {n : Nat} (h : n ≤ 9) : (digitCh n).isDigit = true := by
  interval_cases n <;> decide

theorem natDigits_ne_nil (n : Nat) : natDigits n ≠ [] := by
  rw [natDigits_eq]
  split <;> simp

theorem natDigits_all_digit : ∀ (n : Nat), ∀ c ∈ natDigits n, c.isDigit = true := by
  intro n
  induction n using Nat.strong_induction_on with
  | _ n ih =>
    intro c hc
    rw [natDigits_eq] at hc
    split at hc
    · rcases List.mem_singleton.mp hc with rfl
      exact digitCh_isDigit (by omega)
    · rcases List.mem_append.mp hc with h | h
      · exact ih (n / 10) (Nat.div_lt_self (by omega) (by omega)) c h
      · rcases List.mem_singleton.mp h with rfl
        exact digitCh_isDigit (Nat.le_of_lt_succ (Nat.mod_lt n (by omega)))

/-- `dropWhile` over a prefix every element of which satisfies the
predicate. -/
theorem dropWhile_append_of_all {p : Char → Bool} :
    ∀ {d r : Str}, (∀ c ∈ d, p c = true) → (d ++ r).dropWhile p = r.dropWhile p := by
  intro d
  induction d with
  | nil => intro r _; rfl
  | cons x xs ih =>
    intro r h
    have hx : p x = true := h x (List.mem_cons_self x xs)
    rw [List.cons_append, List.dropWhile_cons_of_pos hx]
    exact ih fun c hc => h c (List.mem_cons_of_mem x hc)

/-- A digit block followed by a period starts a `^\d+\.` match. -/
theorem startsNum_digits_append (d r : Str) (hd : d ≠ [])
    (hdig : ∀ c ∈ d, c.isDigit = true) : startsNum (d ++ '.' :: r) = true := by
  unfold startsNum
  cases d with
  | nil => exact absurd rfl hd
  | cons x xs =>
    rw [List.cons_append, List.head?_cons]
    have hx : x.isDigit = true := hdig x (List.mem_cons_self x xs)
    have hdrop : ((x :: xs) ++ '.' :: r).dropWhile Char.isDigit = ('.' :: r).dropWhile Char.isDigit :=
      dropWhile_append_of_all hdig
    rw [List.cons_append] at hdrop
    rw [hdrop, List.dropWhile_cons_of_neg (by decide)]
    simp [hx]

/-- The numbering loop emits non-empty newline-free `^\d+\.`-matching
lines. -/
theorem numberLines_good :
    ∀ (counter : Nat) (ls : List Str), (∀ l ∈ ls, l ≠ [] ∧ '\n' ∉ l) →
      ∀ m ∈ numberLines counter ls, (m ≠ [] ∧ '\n' ∉ m) ∧ startsNum m = true := by
  intro counter ls
  induction ls generalizing counter with
  | nil => intro _ m hm; cases hm
  | cons line rest ih =>
    intro hls m hm
    have hline := hls line (List.mem_cons_self line rest)
    have hrest : ∀ l ∈ rest, l ≠ [] ∧ '\n' ∉ l :=
      fun l hl => hls l (List.mem_cons_of_mem line hl)
    unfold numberLines at hm
    split at hm
    · rcases List.mem_cons.mp hm with rfl | hm'
      · exact ⟨hline, by assumption⟩
      · exact ih counter hrest m hm'
    · rcases List.mem_cons.mp hm with rfl | hm'
      · constructor
        · refine ⟨by simp, fun hc => ?_⟩
          rcases List.mem_append.mp hc with hc | hc
          · have := natDigits_all_digit counter '\n' hc
            simp [Char.isDigit] at this
          · rcases List.mem_cons.mp hc with hc | hc
            · cases hc
            · rcases List.mem_cons.mp hc with hc | hc
              · cases hc
              · exact hline.2 hc
        · exact startsNum_digits_append _ _ (natDigits_ne_nil counter)
            (natDigits_all_digit counter)
      · exact ih (counter + 1) hrest m hm'

/-- Joining then splitting newline-free lines is the identity. -/
theorem splitNL_joinNL {ls : List Str} (h : ∀ l ∈ ls, '\n' ∉ l) (hne : ls ≠ []) :
    splitNL (joinNL ls) = ls :=
  List.splitOn_intercalate ls '\n' h hne

/-- C3 as amended: whenever the input fails the already-formatted check (so
the repair branch runs), `format_activity` returns either the empty string
(no non-blank content) or a newline-joined string in which every line is
non-blank and matches `^\d+\.`.  (The ascending-from-1, no-duplicate and
`^\d+\.\s` parts of the original claim are refuted by
`c3_counterexample`.) -/
theorem c3_repair_branch_lines (a : ActivityInput)
    (h : validate_activity_format (normalizeEolCtrl (toActivityString a)) = false) :
    format_activity a = [] ∨
      ∀ l ∈ splitNL (format_activity a), l ≠ [] ∧ startsNum l = true := by
  have hform : format_activity a =
      joinNL (numberLines 1
        (mergeLines (strippedLines (normalizeEolCtrl (toActivityString a))) [])) := by
    unfold format_activity
    simp only [h, Bool.false_eq_true, if_false]
  simp only [hform]
  set act := normalizeEolCtrl (toActivityString a) with hact
  have hmerged : ∀ m ∈ mergeLines (strippedLines act) [], m ≠ [] ∧ '\n' ∉ m :=
    mergeLines_good (strippedLines act) []
      (fun l hl => strippedLines_good hl) (Or.inl rfl)
  have hnum := numberLines_good 1 (mergeLines (strippedLines act) []) hmerged
  cases hN : numberLines 1 (mergeLines (strippedLines act) []) with
  | nil => exact Or.inl rfl
  | cons m ms =>
    right
    rw [← hN, splitNL_joinNL (fun l hl => ((hnum l hl).1).2) (by rw [hN]; simp)]
    intro l hl
    exact ⟨((hnum l hl).1).1, (hnum l hl).2⟩

/-- C3 witness: a concrete repair-branch input whose output lines all carry
a numbered-step prefix. -/
theorem c3_witness :
    validate_activity_format
        (normalizeEolCtrl (toActivityString (.astr "hello world\n2. next".toList))) = false ∧
    (format_activity (.astr "hello world\n2. next".toList) = [] ∨
      ∀ l ∈ splitNL (format_activity (.astr "hello world\n2. next".toList)),
        l ≠ [] ∧ startsNum l = true) :=
  ⟨by decide, c3_repair_branch_lines (.astr "hello world\n2. next".toList) (by decide)⟩

/-! ## Replacement-scanner lemmas (towards C4) -/

theorem pyReplaceAux_fuel_irrel (pat rep : Str) :
    ∀ (f f' : Nat) (s : Str), s.length < f → s.length < f' →
      pyReplaceAux pat rep f s = pyReplaceAux pat rep f' s := by
  intro f
  induction f with
  | zero => intro f' s h; omega
  | succ g ih =>
    intro f' s h h'
    cases f' with
    | zero => omega
    | succ g' =>
      simp only [pyReplaceAux]
      by_cases hc : (!pat.isEmpty && pat.isPrefixOf s) = true
      · rw [if_pos hc, if_pos hc]
        obtain ⟨hne, hpre⟩ := Bool.and_eq_true_iff.mp hc
        have hpre' : pat <+: s := List.isPrefixOf_iff_prefix.mp hpre
        have h1 : 1 ≤ pat.length := by
          cases pat
          · simp at hne
          · simp
        have h2 : pat.length ≤ s.length := hpre'.length_le
        have : (s.drop pat.length).length < g := by
          simp only [List.length_drop]
          omega
        rw [ih g' (s.drop pat.length) this (by simp only [List.length_drop]; omega)]
      · rw [if_neg hc, if_neg hc]
        cases s with
        | nil => rfl
        | cons c cs =>
          simp only [List.length_cons] at h h'
          show c :: pyReplaceAux pat rep g cs = c :: pyReplaceAux pat rep g' cs
          rw [ih g' cs (by omega) (by omega)]

theorem pyReplace_nil (pat rep : Str) : pyReplace pat rep [] = [] := by
  cases pat <;> rfl

theorem pyReplace_pos {pat : Str} (rep : Str) {s : Str} (h1 : pat ≠ []) (h2 : pat <+: s) :
    pyReplace pat rep s = rep ++ pyReplace pat rep (s.drop pat.length) := by
  have hc : (!pat.isEmpty && pat.isPrefixOf s) = true := by
    simp [List.isPrefixOf_iff_prefix.mpr h2, h1]
  have hlen1 : 1 ≤ pat.length := by
    cases pat
    · exact absurd rfl h1
    · simp
  have hlen2 : pat.length ≤ s.length := h2.length_le
  show pyReplaceAux pat rep (s.length + 1) s = _
  simp only [pyReplaceAux, if_pos hc]
  rw [pyReplaceAux_fuel_irrel pat rep s.length ((s.drop pat.length).length + 1)
    (s.drop pat.length) (by simp only [List.length_drop]; omega) (by omega)]
  rfl

theorem pyReplace_cons_neg {pat : Str} (rep : Str) {c : Char} {cs : Str}
    (h : ¬ pat <+: c :: cs) : pyReplace pat rep (c :: cs) = c :: pyReplace pat rep cs := by
  have hc : (!pat.isEmpty && pat.isPrefixOf (c :: cs)) = false := by
    have : pat.isPrefixOf (c :: cs) = false := by
      cases hp : pat.isPrefixOf (c :: cs)
      · rfl
      · exact absurd (List.isPrefixOf_iff_prefix.mp hp) h
    simp [this]
  show pyReplaceAux pat rep (cs.length + 1 + 1) (c :: cs) = _
  simp only [pyReplaceAux, hc, Bool.false_eq_true, if_false]
  rfl

theorem pyReplace_no_occ {pat : Str} (rep : Str) (_h1 : pat ≠ []) :
    ∀ {s : Str}, ¬ pat <:+: s → pyReplace pat rep s = s := by
  intro s
  induction s with
  | nil => intro _; exact pyReplace_nil pat rep
  | cons c cs ih =>
    intro h
    have hp : ¬ pat <+: c :: cs := fun hp => h (List.infix_cons_iff.mpr (Or.inl hp))
    rw [pyReplace_cons_neg rep hp, ih fun hi => h (List.infix_cons hi)]

theorem not_infix_of_mem_not_mem {pat s : Str} {c : Char} (hc : c ∈ pat) (hs : c ∉ s) :
    ¬ pat <:+: s := fun h => hs (h.subset hc)

theorem prefix_left_of_le {pat a b : Str} (h : pat <+: a ++ b) (hl : pat.length ≤ a.length) :
    pat <+: a := by
  rw [List.prefix_iff_eq_take] at h ⊢
  rwa [List.take_append_of_le_length hl] at h

theorem mem_of_prefix_past {pat a b : Str} {c : Char} (h : pat <+: a ++ c :: b)
    (hl : a.length < pat.length) : c ∈ pat := by
  have hi : a.length < (a ++ c :: b).length := by simp
  have heq := h.getElem (n := a.length) hl
  have h2 : (a ++ c :: b)[a.length] = c := by
    rw [List.getElem_append_right (Nat.le_refl a.length)]
    simp
  rw [h2] at heq
  exact heq ▸ List.getElem_mem hl

theorem not_prefix_append_sep {pat a b : Str} (ha : ¬ pat <:+: a) (hnl : '\n' ∉ pat)
    (hb : b = [] ∨ b.head? = some '\n') : ¬ pat <+: a ++ b := by
  intro h
  by_cases hl : pat.length ≤ a.length
  · exact ha (prefix_left_of_le h hl).isInfix
  · push_neg at hl
    rcases hb with rfl | hb
    · have := h.length_le
      simp at this
      omega
    · obtain ⟨c, b', rfl⟩ : ∃ c b', b = c :: b' := by
        cases b with
        | nil => cases hb
        | cons c b' => exact ⟨c, b', rfl⟩
      have : c = '\n' := by simpa using hb
      subst this
      exact hnl (mem_of_prefix_past h hl)

theorem replace_append_sep {pat : Str} (rep : Str) {a b : Str} (hnl : '\n' ∉ pat)
    (ha : ¬ pat <:+: a) (hb : b = [] ∨ b.head? = some '\n') :
    pyReplace pat rep (a ++ b) = a ++ pyReplace pat rep b := by
  induction a with
  | nil => simp
  | cons x a' ih =>
    rw [List.cons_append,
      pyReplace_cons_neg rep (by
        have := not_prefix_append_sep (a := x :: a') ha hnl hb
        simpa using this),
      ih fun hi => ha (List.infix_cons hi)]
    rfl

theorem not_infix_append_sep {pat a b : Str} (_hpat : pat ≠ []) (hnl : '\n' ∉ pat)
    (ha : ¬ pat <:+: a) (hbi : ¬ pat <:+: b) (hb : b = [] ∨ b.head? = some '\n') :
    ¬ pat <:+: a ++ b := by
  induction a with
  | nil => simpa using hbi
  | cons x a' ih =>
    rw [List.cons_append, List.infix_cons_iff]
    rintro (hp | hi)
    · exact not_prefix_append_sep (a := x :: a') ha hnl hb (by simpa using hp)
    · exact ih (fun hi' => ha (List.infix_cons hi')) hi

theorem replace_head {pat : Str} (rep : Str) {z : Str} (hpat : pat ≠ [])
    (hz : ¬ pat <:+: z) : pyReplace pat rep (pat ++ z) = rep ++ z := by
  rw [pyReplace_pos rep hpat (List.prefix_append pat z), List.drop_left,
    pyReplace_no_occ rep hpat hz]

theorem pyReplace_nil_pat (rep : Str) : ∀ s : Str, pyReplace [] rep s = s := by
  intro s
  induction s with
  | nil => rfl
  | cons c cs ih =>
    show pyReplaceAux [] rep (cs.length + 1 + 1) (c :: cs) = c :: cs
    show c :: pyReplaceAux [] rep (cs.length + 1) cs = c :: cs
    rw [show pyReplaceAux [] rep (cs.length + 1) cs = pyReplace [] rep cs from rfl, ih]

theorem replace_append_disjoint {pat : Str} (rep : Str) {a b : Str}
    (h : ∀ c ∈ a, c ∉ pat) : pyReplace pat rep (a ++ b) = a ++ pyReplace pat rep b := by
  cases hpat : pat with
  | nil => simp [pyReplace_nil_pat]
  | cons p ps =>
    rw [← hpat]
    induction a with
    | nil => simp
    | cons x a' ih =>
      rw [List.cons_append, pyReplace_cons_neg rep (fun hp => by
        have hx : x ∈ pat := by
          have : pat.head? = some x := by
            cases pat with
            | nil => simp at hpat
            | cons q qs =>
              obtain ⟨h1, -⟩ := List.cons_prefix_cons.mp hp
              simp [h1]
          cases pat with
          | nil => simp at this
          | cons q qs =>
            simp only [List.head?_cons, Option.some.injEq] at this
            exact this ▸ List.mem_cons_self q qs
        exact h x (List.mem_cons_self x a') hx),
        ih fun c hc => h c (List.mem_cons_of_mem x hc)]
      rfl

/-! ## Character-class lemmas -/

theorem isDigit_toNat {c : Char} (h : c.isDigit = true) : 48 ≤ c.toNat ∧ c.toNat ≤ 57 := by
  revert h
  unfold Char.isDigit
  intro h
  simp only [Bool.and_eq_true, decide_eq_true_eq] at h
  exact h

theorem char_facts_of_isDigit {c : Char} (h : c.isDigit = true) :
    isPySpace c = false ∧ isCtrlRemoved c = false ∧ c ≠ '\n' ∧ c ≠ '\r' ∧ c ≠ '.' ∧ c ≠ ' ' := by
  obtain ⟨h1, h2⟩ := isDigit_toNat h
  have hval : ∀ (d : Char) (n : Nat), c = d → d.toNat = n → c.toNat = n :=
    fun d n hd hn => by rw [hd, hn]
  have hu : ∀ (u : UInt32) (n : Nat), c.val = u → u.toNat = n → c.toNat = n :=
    fun u n hd hn => by
      show c.val.toNat = n
      rw [hd, hn]
  refine ⟨?_, ?_, ?_, ?_, ?_, ?_⟩
  · cases hsp : isPySpace c
    · rfl
    · exfalso
      unfold isPySpace at hsp
      simp only [Bool.or_eq_true, beq_iff_eq] at hsp
      rcases hsp with ((((hc | hc) | hc) | hc) | hc) | hc
      · have := hval _ 32 hc (by decide); omega
      · have := hval _ 9 hc (by decide); omega
      · have := hval _ 10 hc (by decide); omega
      · have := hval _ 13 hc (by decide); omega
      · have := hu _ 11 hc (by decide); omega
      · have := hu _ 12 hc (by decide); omega
  · cases hsp : isCtrlRemoved c
    · rfl
    · exfalso
      unfold isCtrlRemoved at hsp
      simp only [Bool.or_eq_true, Bool.and_eq_true, beq_iff_eq, decide_eq_true_eq] at hsp
      rcases hsp with (((hc | hc) | hc) | ⟨hc, hc'⟩) | hc
      · have h3 : c.toNat ≤ 9 := hc
        omega
      · have := hu _ 11 hc (by decide); omega
      · have := hu _ 12 hc (by decide); omega
      · have ha : 14 ≤ c.toNat := hc
        have hb : c.toNat ≤ 31 := hc'
        omega
      · have := hu _ 127 hc (by decide); omega
  · intro hc; have := hval _ 10 hc (by decide); omega
  · intro hc; have := hval _ 13 hc (by decide); omega
  · intro hc; have := hval _ 46 hc (by decide); omega
  · intro hc; have := hval _ 32 hc (by decide); omega

/-! ## Digit-pattern and step-line lemmas -/

theorem natDigits_lt_ten {n : Nat} (h : n < 10) : natDigits n = [digitCh n] := by
  rw [natDigits_eq, if_pos h]

theorem natDigits_ten : natDigits 10 = ['1', '0'] := by decide

theorem digitCh_inj {m n : Nat} (hm : m ≤ 9) (hn : n ≤ 9) :
    digitCh m = digitCh n ↔ m = n := by
  interval_cases m <;> interval_cases n <;> simp_all <;> decide

theorem numPat_le9 {j : Nat} (hj : j ≤ 9) : numPat j = [digitCh j, '.', ' '] := by
  unfold numPat
  rw [natDigits_lt_ten (by omega)]
  rfl

theorem numPat_ten : numPat 10 = ['1', '0', '.', ' '] := by decide

theorem numPat_ne_nil (j : Nat) : numPat j ≠ [] := by
  unfold numPat
  simp

theorem newline_not_mem_numPat (j : Nat) : '\n' ∉ numPat j := by
  unfold numPat
  intro hm
  rcases List.mem_append.mp hm with hm | hm
  · exact (char_facts_of_isDigit (natDigits_all_digit j _ hm)).2.2.1 rfl
  · simp at hm

theorem stepLine_eq_numPat (i : Nat) (t : Str) : stepLine i t = numPat i ++ t := by
  unfold stepLine numPat
  simp

theorem newline_not_mem_stepLine {i : Nat} {t : Str} (ht : ∀ c ∈ t, c ≠ '\n') :
    '\n' ∉ stepLine i t := by
  rw [stepLine_eq_numPat]
  intro hm
  rcases List.mem_append.mp hm with hm | hm
  · exact newline_not_mem_numPat i hm
  · exact ht '\n' hm rfl

theorem stepLine_head {i : Nat} (hi1 : 1 ≤ i) (hi10 : i ≤ 10) (t : Str) :
    ∃ d rest, stepLine i t = d :: rest ∧ d.isDigit = true := by
  by_cases h9 : i ≤ 9
  · refine ⟨digitCh i, '.' :: ' ' :: t, ?_, digitCh_isDigit h9⟩
    unfold stepLine
    rw [natDigits_lt_ten (by omega)]
    rfl
  · have : i = 10 := by omega
    subst this
    refine ⟨'1', '0' :: '.' :: ' ' :: t, ?_, by decide⟩
    unfold stepLine
    rw [natDigits_ten]
    rfl

/-- The core head-mismatch fact: the pattern `f"{j}. "` does not occur in the
line `f"{i}. {t}"` when `i ≠ j` and the text is clean. -/
theorem not_infix_numPat_stepLine {j i : Nat} {t : Str} (hj1 : 1 ≤ j) (hj10 : j ≤ 10)
    (hi1 : 1 ≤ i) (hi10 : i ≤ 10) (hne : i ≠ j) (ht : cleanText t) :
    ¬ numPat j <:+: stepLine i t := by
  have htj : ¬ numPat j <:+: t := ht.2.2.2 j hj1 hj10
  have hdot : ∀ (r : Str), ¬ numPat j <+: '.' :: r := by
    intro r hp
    by_cases h9 : j ≤ 9
    · rw [numPat_le9 h9] at hp
      obtain ⟨h1, -⟩ := List.cons_prefix_cons.mp hp
      exact (char_facts_of_isDigit (digitCh_isDigit h9)).2.2.2.2.1 h1
    · have : j = 10 := by omega
      subst this
      rw [numPat_ten] at hp
      obtain ⟨h1, -⟩ := List.cons_prefix_cons.mp hp
      exact absurd h1 (by decide)
  have hspace : ∀ (r : Str), ¬ numPat j <+: ' ' :: r := by
    intro r hp
    by_cases h9 : j ≤ 9
    · rw [numPat_le9 h9] at hp
      obtain ⟨h1, -⟩ := List.cons_prefix_cons.mp hp
      exact (char_facts_of_isDigit (digitCh_isDigit h9)).2.2.2.2.2 h1
    · have : j = 10 := by omega
      subst this
      rw [numPat_ten] at hp
      obtain ⟨h1, -⟩ := List.cons_prefix_cons.mp hp
      exact absurd h1 (by decide)
  by_cases h9 : i ≤ 9
  · have hsl : stepLine i t = digitCh i :: '.' :: ' ' :: t := by
      unfold stepLine
      rw [natDigits_lt_ten (by omega)]
      rfl
    rw [hsl, List.infix_cons_iff, List.infix_cons_iff, List.infix_cons_iff]
    rintro (hp | hp | hp | hi')
    · by_cases hj9 : j ≤ 9
      · rw [numPat_le9 hj9] at hp
        obtain ⟨h1, -⟩ := List.cons_prefix_cons.mp hp
        exact hne ((digitCh_inj hj9 h9).mp h1).symm
      · have : j = 10 := by omega
        subst this
        rw [numPat_ten] at hp
        obtain ⟨-, h2⟩ := List.cons_prefix_cons.mp hp
        obtain ⟨h3, -⟩ := List.cons_prefix_cons.mp h2
        exact absurd h3 (by decide)
    · exact hdot _ hp
    · exact hspace _ hp
    · exact htj hi'
  · have hi10' : i = 10 := by omega
    subst hi10'
    have hsl : stepLine 10 t = '1' :: '0' :: '.' :: ' ' :: t := by
      unfold stepLine
      rw [natDigits_ten]
      rfl
    rw [hsl, List.infix_cons_iff, List.infix_cons_iff, List.infix_cons_iff,
      List.infix_cons_iff]
    rintro (hp | hp | hp | hp | hi')
    · by_cases hj9 : j ≤ 9
      · rw [numPat_le9 hj9] at hp
        obtain ⟨-, h2⟩ := List.cons_prefix_cons.mp hp
        obtain ⟨h3, -⟩ := List.cons_prefix_cons.mp h2
        exact absurd h3 (by decide)
      · have : j = 10 := by omega
        exact hne this.symm
    · by_cases hj9 : j ≤ 9
      · rw [numPat_le9 hj9] at hp
        obtain ⟨h1, -⟩ := List.cons_prefix_cons.mp hp
        have := (digitCh_inj hj9 (by omega : (0 : Nat) ≤ 9)).mp
          (h1.trans (by decide : ('0' : Char) = digitCh 0))
        omega
      · have : j = 10 := by omega
        subst this
        rw [numPat_ten] at hp
        obtain ⟨h1, -⟩ := List.cons_prefix_cons.mp hp
        exact absurd h1 (by decide)
    · exact hdot _ hp
    · exact hspace _ hp
    · exact htj hi'

/-! ## Strip and line lemmas -/

theorem dropWhile_length_le {p : Char → Bool} (l : Str) :
    (l.dropWhile p).length ≤ l.length :=
  (List.dropWhile_suffix p).sublist.length_le

theorem dropWhile_eq_self_of_length {p : Char → Bool} {l : Str}
    (h : (l.dropWhile p).length = l.length) : l.dropWhile p = l :=
  (List.dropWhile_suffix p).sublist.eq_of_length h

theorem pyStrip_parts {t : Str} (h : pyStrip t = t) :
    t.dropWhile isPySpace = t ∧ t.reverse.dropWhile isPySpace = t.reverse := by
  have hlen : (pyStrip t).length = t.length := by rw [h]
  unfold pyStrip at hlen
  simp only [List.length_reverse] at hlen
  have h1 : (t.dropWhile isPySpace).length ≤ t.length := dropWhile_length_le t
  have h2 : ((t.dropWhile isPySpace).reverse.dropWhile isPySpace).length ≤
      (t.dropWhile isPySpace).length := by
    have := dropWhile_length_le (p := isPySpace) (t.dropWhile isPySpace).reverse
    simpa using this
  have hd : t.dropWhile isPySpace = t :=
    dropWhile_eq_self_of_length (by omega)
  refine ⟨hd, ?_⟩
  rw [hd] at hlen
  exact dropWhile_eq_self_of_length (by simpa using hlen)

theorem head_not_ws_of_dropWhile_eq {x : Char} {xs : Str}
    (h : (x :: xs).dropWhile isPySpace = x :: xs) : isPySpace x = false := by
  cases hx : isPySpace x
  · rfl
  · rw [List.dropWhile_cons_of_pos hx] at h
    have := congrArg List.length h
    have hle := dropWhile_length_le (p := isPySpace) xs
    simp at this
    omega

theorem dropWhile_eq_self_of_head {p : Char → Bool} {x : Char} {xs : Str}
    (h : p x = false) : (x :: xs).dropWhile p = x :: xs :=
  List.dropWhile_cons_of_neg (by simp [h])

/-- Stripping is the identity on a clean step line. -/
theorem pyStrip_stepLine {i : Nat} {t : Str} (hi1 : 1 ≤ i) (hi10 : i ≤ 10)
    (ht : cleanText t) : pyStrip (stepLine i t) = stepLine i t := by
  obtain ⟨d, rest, hsl, hd⟩ := stepLine_head hi1 hi10 t
  have hfront : (stepLine i t).dropWhile isPySpace = stepLine i t := by
    rw [hsl]
    exact dropWhile_eq_self_of_head (char_facts_of_isDigit hd).1
  have hback : (stepLine i t).reverse.dropWhile isPySpace = (stepLine i t).reverse := by
    obtain ⟨x, xs, hrev⟩ : ∃ x xs, t.reverse = x :: xs := by
      cases hrt : t.reverse with
      | nil =>
        exfalso
        have : t = [] := by simpa using congrArg List.reverse hrt
        exact ht.1 this
      | cons x xs => exact ⟨x, xs, rfl⟩
    have hx : isPySpace x = false := by
      have hparts := (pyStrip_parts ht.2.2.1).2
      rw [hrev] at hparts
      exact head_not_ws_of_dropWhile_eq hparts
    have hrev2 : (stepLine i t).reverse = x :: (xs ++ [' ', '.'] ++ (natDigits i).reverse) := by
      unfold stepLine
      rw [List.reverse_append]
      simp [hrev]
    rw [hrev2]
    rw [dropWhile_eq_self_of_head hx]
  unfold pyStrip
  rw [hfront, hback, List.reverse_reverse]

theorem dropWhile_isDigit_stepLine (i : Nat) (t : Str) :
    (stepLine i t).dropWhile Char.isDigit = '.' :: ' ' :: t := by
  unfold stepLine
  rw [dropWhile_append_of_all (natDigits_all_digit i)]
  exact List.dropWhile_cons_of_neg (by decide)

theorem startsNum_stepLine (i : Nat) (t : Str) : startsNum (stepLine i t) = true :=
  startsNum_digits_append _ _ (natDigits_ne_nil i) (natDigits_all_digit i)

theorem isBareNum_stepLine {i : Nat} {t : Str} (ht : t ≠ []) :
    isBareNum (stepLine i t) = false := by
  unfold isBareNum
  rw [dropWhile_isDigit_stepLine]
  cases t with
  | nil => exact absurd rfl ht
  | cons c cs => simp

theorem matchesNumSpace_stepLine (i : Nat) (t : Str) :
    matchesNumSpace (stepLine i t) = true := by
  unfold matchesNumSpace
  rw [dropWhile_isDigit_stepLine]
  simp only [startsNum_stepLine, Bool.true_and]
  decide

/-- All facts about the lines of a clean rendered step list. -/
theorem linesOf_facts :
    ∀ (ts : List Str) (i : Nat), 1 ≤ i → i + ts.length ≤ 11 →
      (∀ t ∈ ts, cleanText t) →
      ∀ l ∈ linesOf i ts,
        l ≠ [] ∧ '\n' ∉ l ∧ pyStrip l = l ∧ startsNum l = true ∧ isBareNum l = false := by
  intro ts
  induction ts with
  | nil => intro i _ _ _ l hl; cases hl
  | cons t rest ih =>
    intro i hi1 hlen hclean l hl
    have htc : cleanText t := hclean t (List.mem_cons_self t rest)
    rcases List.mem_cons.mp hl with rfl | hl'
    · have hi10 : i ≤ 10 := by
        simp only [List.length_cons] at hlen
        omega
      refine ⟨?_, ?_, pyStrip_stepLine hi1 hi10 htc, startsNum_stepLine i t,
        isBareNum_stepLine htc.1⟩
      · obtain ⟨d, r, hsl, -⟩ := stepLine_head hi1 hi10 t
        rw [hsl]
        simp
      · exact newline_not_mem_stepLine fun c hc => (htc.2.1 c hc).2.1
    · refine ih (i + 1) (by omega) (by simp only [List.length_cons] at hlen; omega)
        (fun x hx => hclean x (List.mem_cons_of_mem t hx)) l hl'

/-! ## Render, join and split lemmas -/

theorem joinNL_cons (l : Str) (ls : List Str) :
    joinNL (l :: ls) = l ++ ls.flatMap (fun x => '\n' :: x) := by
  induction ls generalizing l with
  | nil => simp [joinNL, List.intercalate]
  | cons l' ls' ih =>
    show joinNL (l :: l' :: ls') = _
    have h1 : joinNL (l :: l' :: ls') = l ++ '\n' :: joinNL (l' :: ls') := by
      simp [joinNL, List.intercalate]
    rw [h1, ih l']
    simp

theorem renderFrom_eq_joinNL : ∀ (ts : List Str) (i : Nat),
    renderFrom i ts = joinNL (linesOf i ts) := by
  intro ts
  induction ts with
  | nil => intro i; simp [renderFrom, linesOf, joinNL, List.intercalate]
  | cons t rest ih =>
    intro i
    cases rest with
    | nil => simp [renderFrom, linesOf, joinNL, List.intercalate]
    | cons t' ts' =>
      show stepLine i t ++ '\n' :: renderFrom (i + 1) (t' :: ts') = _
      rw [ih (i + 1)]
      show _ = joinNL (stepLine i t :: linesOf (i + 1) (t' :: ts'))
      cases hlin : linesOf (i + 1) (t' :: ts') with
      | nil => simp [linesOf] at hlin
      | cons m ms =>
        simp only [joinNL_cons, List.flatMap_cons]
        simp

theorem linesOf_ne_nil {i : Nat} {ts : List Str} (h : ts ≠ []) : linesOf i ts ≠ [] := by
  cases ts with
  | nil => exact absurd rfl h
  | cons t rest => simp [linesOf]

theorem splitNL_renderFrom {ts : List Str} (hne : ts ≠ []) (hlen : ts.length ≤ 10)
    (hclean : ∀ t ∈ ts, cleanText t) :
    splitNL (renderFrom 1 ts) = linesOf 1 ts := by
  rw [renderFrom_eq_joinNL]
  exact splitNL_joinNL
    (fun l hl => (linesOf_facts ts 1 (by omega) (by omega) hclean l hl).2.1)
    (linesOf_ne_nil hne)

/-- Character classification of a rendered step list. -/
theorem mem_renderFrom : ∀ (ts : List Str) (i : Nat) (c : Char), c ∈ renderFrom i ts →
    c.isDigit = true ∨ c = '.' ∨ c = ' ' ∨ c = '\n' ∨ ∃ t ∈ ts, c ∈ t := by
  intro ts
  induction ts with
  | nil => intro i c hc; cases hc
  | cons t rest ih =>
    intro i c hc
    have hstep : ∀ (k : Nat), c ∈ stepLine k t →
        c.isDigit = true ∨ c = '.' ∨ c = ' ' ∨ c = '\n' ∨ ∃ x ∈ t :: rest, c ∈ x := by
      intro k hk
      unfold stepLine at hk
      rcases List.mem_append.mp hk with hk | hk
      · exact Or.inl (natDigits_all_digit k c hk)
      · rcases List.mem_cons.mp hk with rfl | hk
        · exact Or.inr (Or.inl rfl)
        · rcases List.mem_cons.mp hk with rfl | hk
          · exact Or.inr (Or.inr (Or.inl rfl))
          · exact Or.inr (Or.inr (Or.inr (Or.inr ⟨t, List.mem_cons_self t rest, hk⟩)))
    cases rest with
    | nil => exact hstep i hc
    | cons t' ts' =>
      rcases List.mem_append.mp hc with hc | hc
      · exact hstep i hc
      · rcases List.mem_cons.mp hc with rfl | hc
        · exact Or.inr (Or.inr (Or.inr (Or.inl rfl)))
        · rcases ih (i + 1) c hc with h | h | h | h | ⟨x, hx, hcx⟩
          · exact Or.inl h
          · exact Or.inr (Or.inl h)
          · exact Or.inr (Or.inr (Or.inl h))
          · exact Or.inr (Or.inr (Or.inr (Or.inl h)))
          · exact Or.inr (Or.inr (Or.inr (Or.inr ⟨x, List.mem_cons_of_mem t hx, hcx⟩)))

theorem normalizeEolCtrl_renderFrom {ts : List Str} (hclean : ∀ t ∈ ts, cleanText t) :
    normalizeEolCtrl (renderFrom 1 ts) = renderFrom 1 ts := by
  have hchar : ∀ c ∈ renderFrom 1 ts, c ≠ '\r' ∧ isCtrlRemoved c = false := by
    intro c hc
    rcases mem_renderFrom ts 1 c hc with h | h | h | h | ⟨t, ht, hct⟩
    · exact ⟨(char_facts_of_isDigit h).2.2.2.1, (char_facts_of_isDigit h).2.1⟩
    · subst h; exact ⟨by decide, by decide⟩
    · subst h; exact ⟨by decide, by decide⟩
    · subst h; exact ⟨by decide, by decide⟩
    · obtain ⟨hctl, -, hcr⟩ := (hclean t ht).2.1 c hct
      exact ⟨hcr, hctl⟩
  unfold normalizeEolCtrl
  rw [pyReplace_no_occ _ (by simp)
      (not_infix_of_mem_not_mem (List.mem_cons_self '\r' ['\n'])
        fun hm => (hchar '\r' hm).1 rfl),
    pyReplace_no_occ _ (by simp)
      (not_infix_of_mem_not_mem (List.mem_singleton.mpr rfl)
        fun hm => (hchar '\r' hm).1 rfl)]
  rw [List.filter_eq_self.mpr fun c hc => by simp [(hchar c hc).2]]

theorem map_pyStrip_linesOf {ts : List Str} {i : Nat} (h1 : 1 ≤ i)
    (hlen : i + ts.length ≤ 11) (hclean : ∀ t ∈ ts, cleanText t) :
    (linesOf i ts).map pyStrip = linesOf i ts := by
  have : ∀ l ∈ linesOf i ts, pyStrip l = l :=
    fun l hl => (linesOf_facts ts i h1 hlen hclean l hl).2.2.1
  calc (linesOf i ts).map pyStrip = (linesOf i ts).map id := List.map_congr_left this
    _ = linesOf i ts := List.map_id _

theorem strippedLines_renderFrom {ts : List Str} (hne : ts ≠ []) (hlen : ts.length ≤ 10)
    (hclean : ∀ t ∈ ts, cleanText t) :
    strippedLines (renderFrom 1 ts) = linesOf 1 ts := by
  unfold strippedLines
  rw [show splitNL (renderFrom 1 ts) = linesOf 1 ts from
      splitNL_renderFrom hne hlen hclean,
    map_pyStrip_linesOf (by omega) (by omega) hclean]
  exact List.filter_eq_self.mpr fun l hl => by
    have := (linesOf_facts ts 1 (by omega) (by omega) hclean l hl).1
    simpa using this

theorem validate_renderFrom {ts : List Str} (hne : ts ≠ []) (hlen : ts.length ≤ 10)
    (hclean : ∀ t ∈ ts, cleanText t) :
    validate_activity_format (renderFrom 1 ts) = true := by
  unfold validate_activity_format
  have hlines := strippedLines_renderFrom hne hlen hclean
  have hact : renderFrom 1 ts ≠ [] := by
    cases ts with
    | nil => exact absurd rfl hne
    | cons t rest =>
      cases rest with
      | nil =>
        show stepLine 1 t ≠ []
        obtain ⟨d, r, hsl, -⟩ := stepLine_head (i := 1) (by omega) (by omega) t
        rw [hsl]
        simp
      | cons t' ts' =>
        show stepLine 1 t ++ '\n' :: renderFrom 2 (t' :: ts') ≠ []
        simp
  rw [if_neg (by simpa using hact), hlines, if_neg (by simpa using linesOf_ne_nil hne)]
  exact List.all_eq_true.mpr fun l hl =>
    (linesOf_facts ts 1 (by omega) (by omega) hclean l hl).2.2.2.1

/-! ## The already-formatted branch on a clean rendered step list -/

theorem firstLoopAux_succ :
    ∀ (ls : List Str) (j : Nat),
      (∀ l ∈ ls, pyStrip l = l ∧ l ≠ [] ∧ startsNum l = true ∧ isBareNum l = false) →
      firstLoopAux (j + 1) ls = ls.flatMap (fun l => '\n' :: l) := by
  intro ls
  induction ls with
  | nil => intro j _; rfl
  | cons l rest ih =>
    intro j h
    obtain ⟨hstrip, hne, hnum, hbare⟩ := h l (List.mem_cons_self l rest)
    show (let stripped := pyStrip l
      (if stripped.isEmpty then []
       else (if startsNum stripped && decide (0 < j + 1) then '\n' :: stripped else stripped) ++
         (if isBareNum stripped then [' '] else [])) ++ firstLoopAux (j + 2) rest) = _
    simp only [hstrip]
    rw [if_neg (by simpa using hne)]
    rw [if_pos (by simp [hnum]), if_neg (by simp [hbare])]
    rw [ih (j + 1) fun x hx => h x (List.mem_cons_of_mem l hx)]
    simp

theorem firstLoopAux_zero (ls : List Str) (hne : ls ≠ [])
    (h : ∀ l ∈ ls, pyStrip l = l ∧ l ≠ [] ∧ startsNum l = true ∧ isBareNum l = false) :
    firstLoopAux 0 ls = joinNL ls := by
  cases ls with
  | nil => exact absurd rfl hne
  | cons l rest =>
    obtain ⟨hstrip, hlne, hnum, hbare⟩ := h l (List.mem_cons_self l rest)
    show (let stripped := pyStrip l
      (if stripped.isEmpty then []
       else (if startsNum stripped && decide (0 < 0) then '\n' :: stripped else stripped) ++
         (if isBareNum stripped then [' '] else [])) ++ firstLoopAux 1 rest) = _
    simp only [hstrip]
    rw [if_neg (by simpa using hlne)]
    rw [if_neg (by simp), if_neg (by simp [hbare])]
    rw [firstLoopAux_succ rest 0 fun x hx => h x (List.mem_cons_of_mem l hx)]
    rw [joinNL_cons]
    simp

/-! ## The renumbering pass on a clean rendered step list -/

theorem stateFrom_eq_renderFrom :
    ∀ (ts : List Str) (i j : Nat), i + ts.length ≤ j + 1 →
      stateFrom j i ts = renderFrom i ts := by
  intro ts
  induction ts with
  | nil => intro i j _; rfl
  | cons t rest ih =>
    intro i j hlen
    cases rest with
    | nil =>
      show (if j < i then ['\n'] else []) ++ stepLine i t = stepLine i t
      rw [if_neg (by simp only [List.length_cons, List.length_nil] at hlen; omega)]
      rfl
    | cons t' ts' =>
      show (if j < i then ['\n'] else []) ++ stepLine i t ++ '\n' :: stateFrom j (i + 1) (t' :: ts') =
        stepLine i t ++ '\n' :: renderFrom (i + 1) (t' :: ts')
      rw [if_neg (by simp only [List.length_cons] at hlen; omega),
        ih (i + 1) j (by simp only [List.length_cons] at hlen ⊢; omega)]
      rfl

/-- One pass of the renumbering loop: replacing `f"{j}. "` by `f"\n{j}. "`
marks exactly line `j`. -/
theorem numPass_step {j : Nat} (hj1 : 1 ≤ j) (hj10 : j ≤ 10) :
    ∀ (ts : List Str) (i : Nat), 1 ≤ i → i + ts.length ≤ 11 → (∀ t ∈ ts, cleanText t) →
      pyReplace (numPat j) ('\n' :: numPat j) (stateFrom j i ts) =
        stateFrom (j - 1) i ts := by
  intro ts
  induction ts with
  | nil =>
    intro i _ _ _
    exact pyReplace_nil _ _
  | cons t rest ih =>
    intro i hi1 hlen hclean
    have htc : cleanText t := hclean t (List.mem_cons_self t rest)
    have hi10 : i ≤ 10 := by simp only [List.length_cons] at hlen; omega
    have hpatne : numPat j ≠ [] := numPat_ne_nil j
    have hnlpat : '\n' ∉ numPat j := newline_not_mem_numPat j
    have hnotline : i ≠ j → ¬ numPat j <:+: stepLine i t := fun hne =>
      not_infix_numPat_stepLine hj1 hj10 hi1 hi10 hne htc
    have hnppre : ∀ X : Str, ¬ numPat j <+: '\n' :: X := by
      intro X hp
      cases hpat : numPat j with
      | nil => exact hpatne hpat
      | cons p ps =>
        rw [hpat] at hp
        obtain ⟨h1, -⟩ := List.cons_prefix_cons.mp hp
        refine hnlpat ?_
        rw [hpat, ← h1]
        exact List.mem_cons_self p ps
    have hmark_eq : i ≠ j →
        (if j < i then (['\n'] : Str) else []) = if j - 1 < i then ['\n'] else [] := by
      intro hne
      by_cases h : j < i
      · rw [if_pos h, if_pos (by omega)]
      · rw [if_neg h, if_neg (by omega)]
    have hnotmarkline : i ≠ j →
        ¬ numPat j <:+: (if j < i then ['\n'] else []) ++ stepLine i t := by
      intro hne
      by_cases h : j < i
      · rw [if_pos h]
        show ¬ numPat j <:+: '\n' :: stepLine i t
        rw [List.infix_cons_iff]
        rintro (hp | hi')
        · exact hnppre _ hp
        · exact hnotline hne hi'
      · rw [if_neg h]
        simpa using hnotline hne
    cases rest with
    | nil =>
      show pyReplace _ _ ((if j < i then ['\n'] else []) ++ stepLine i t) =
        (if j - 1 < i then ['\n'] else []) ++ stepLine i t
      by_cases hij : i = j
      · subst hij
        rw [if_neg (by omega), if_pos (by omega), List.nil_append, stepLine_eq_numPat,
          replace_head _ hpatne (htc.2.2.2 i hi1 hi10)]
        simp [stepLine_eq_numPat]
      · rw [pyReplace_no_occ _ hpatne (hnotmarkline hij), hmark_eq hij]
    | cons t' ts' =>
      have hrest : ∀ x ∈ t' :: ts', cleanText x :=
        fun x hx => hclean x (List.mem_cons_of_mem t hx)
      have hlen' : (i + 1) + (t' :: ts').length ≤ 11 := by
        simp only [List.length_cons] at hlen ⊢
        omega
      have hS' := ih (i + 1) (by omega) hlen' hrest
      show pyReplace _ _
          ((if j < i then ['\n'] else []) ++ stepLine i t ++ '\n' :: stateFrom j (i + 1) (t' :: ts')) =
        (if j - 1 < i then ['\n'] else []) ++ stepLine i t ++
          '\n' :: stateFrom (j - 1) (i + 1) (t' :: ts')
      by_cases hij : i = j
      · subst hij
        rw [if_neg (by omega), if_pos (by omega), List.nil_append, stepLine_eq_numPat]
        have hassoc : numPat i ++ t ++ '\n' :: stateFrom i (i + 1) (t' :: ts') =
            numPat i ++ (t ++ '\n' :: stateFrom i (i + 1) (t' :: ts')) := by simp
        rw [hassoc, pyReplace_pos _ hpatne (List.prefix_append _ _), List.drop_left,
          replace_append_sep (b := '\n' :: stateFrom i (i + 1) (t' :: ts')) _ hnlpat
            (htc.2.2.2 i hi1 hi10) (Or.inr rfl),
          pyReplace_cons_neg _ (hnppre _), hS']
        simp
      · rw [replace_append_sep (b := '\n' :: stateFrom j (i + 1) (t' :: ts')) _ hnlpat
            (hnotmarkline hij) (Or.inr rfl),
          pyReplace_cons_neg _ (hnppre _), hS', hmark_eq hij]

/-- The full ten-pass loop turns the rendered step list into the fully-marked
state. -/
theorem numPass_renderFrom {ts : List Str} (_hne : ts ≠ []) (hlen : ts.length ≤ 10)
    (hclean : ∀ t ∈ ts, cleanText t) :
    numPass (renderFrom 1 ts) = stateFrom 0 1 ts := by
  have hstep : ∀ j, 1 ≤ j → j ≤ 10 →
      pyReplace (numPat j) ('\n' :: numPat j) (stateFrom j 1 ts) = stateFrom (j - 1) 1 ts :=
    fun j h1 h2 => numPass_step h1 h2 ts 1 (by omega) (by omega) hclean
  have h10 : renderFrom 1 ts = stateFrom 10 1 ts :=
    (stateFrom_eq_renderFrom ts 1 10 (by omega)).symm
  have e10 := hstep 10 (by omega) (by omega)
  have e9 := hstep 9 (by omega) (by omega)
  have e8 := hstep 8 (by omega) (by omega)
  have e7 := hstep 7 (by omega) (by omega)
  have e6 := hstep 6 (by omega) (by omega)
  have e5 := hstep 5 (by omega) (by omega)
  have e4 := hstep 4 (by omega) (by omega)
  have e3 := hstep 3 (by omega) (by omega)
  have e2 := hstep 2 (by omega) (by omega)
  have e1 := hstep 1 (by omega) (by omega)
  norm_num at e10 e9 e8 e7 e6 e5 e4 e3 e2 e1
  show List.foldl _ (renderFrom 1 ts) [10, 9, 8, 7, 6, 5, 4, 3, 2, 1] = _
  simp only [List.foldl_cons, List.foldl_nil]
  rw [h10, e10, e9, e8, e7, e6, e5, e4, e3, e2, e1]

/-! ## The cleanup stage -/

theorem stateFrom_zero_cons :
    ∀ (ts : List Str) (i : Nat) (t : Str), 1 ≤ i →
      stateFrom 0 i (t :: ts) = '\n' :: stepLine i t ++ doubled (i + 1) ts := by
  intro ts
  induction ts with
  | nil =>
    intro i t hi
    show (if 0 < i then ['\n'] else []) ++ stepLine i t = _
    rw [if_pos (by omega)]
    simp [doubled]
  | cons t' ts' ih =>
    intro i t hi
    show (if 0 < i then ['\n'] else []) ++ stepLine i t ++ '\n' :: stateFrom 0 (i + 1) (t' :: ts') = _
    rw [if_pos (by omega), ih (i + 1) t' (by omega)]
    show _ = '\n' :: stepLine i t ++ ('\n' :: '\n' :: stepLine (i + 1) t' ++ doubled (i + 2) ts')
    simp

theorem renderFrom_cons_singled :
    ∀ (ts : List Str) (i : Nat) (t : Str),
      renderFrom i (t :: ts) = stepLine i t ++ singled (i + 1) ts := by
  intro ts
  induction ts with
  | nil => intro i t; simp [renderFrom, singled]
  | cons t' ts' ih =>
    intro i t
    show stepLine i t ++ '\n' :: renderFrom (i + 1) (t' :: ts') = _
    rw [ih (i + 1) t']
    show _ = stepLine i t ++ ('\n' :: stepLine (i + 1) t' ++ singled (i + 2) ts')
    simp

theorem replace_doubled :
    ∀ (ts : List Str) (a : Str) (i : Nat), 1 ≤ i → i + ts.length ≤ 11 → '\n' ∉ a →
      (∀ x ∈ ts, cleanText x) →
      pyReplace ['\n', '\n'] ['\n'] (a ++ doubled i ts) = a ++ singled i ts := by
  intro ts
  induction ts with
  | nil =>
    intro a i _ _ ha _
    show pyReplace _ _ (a ++ []) = a ++ []
    rw [List.append_nil,
      pyReplace_no_occ _ (by simp)
        (not_infix_of_mem_not_mem (List.mem_cons_self '\n' ['\n']) ha)]
  | cons t ts' ih =>
    intro a i hi1 hlen ha hclean
    show pyReplace _ _ (a ++ ('\n' :: '\n' :: stepLine i t ++ doubled (i + 1) ts')) =
      a ++ ('\n' :: stepLine i t ++ singled (i + 1) ts')
    rw [replace_append_disjoint _ fun c hc hm => by
      rcases List.mem_cons.mp hm with rfl | hm
      · exact ha hc
      · rcases List.mem_singleton.mp hm with rfl
        exact ha hc]
    rw [show ('\n' :: '\n' :: stepLine i t ++ doubled (i + 1) ts' : Str) =
        ['\n', '\n'] ++ (stepLine i t ++ doubled (i + 1) ts') by simp]
    rw [pyReplace_pos _ (by simp) (List.prefix_append _ _), List.drop_left]
    have htclean : cleanText t := hclean t (List.mem_cons_self t ts')
    rw [ih (stepLine i t) (i + 1) (by omega)
      (by simp only [List.length_cons] at hlen ⊢; omega)
      (newline_not_mem_stepLine fun c hc => (htclean.2.1 c hc).2.1)
      fun x hx => hclean x (List.mem_cons_of_mem t hx)]
    rfl

theorem cleanupValid_stateZero {ts : List Str} (hne : ts ≠ []) (hlen : ts.length ≤ 10)
    (hclean : ∀ t ∈ ts, cleanText t) :
    cleanupValid (stateFrom 0 1 ts) = renderFrom 1 ts := by
  cases ts with
  | nil => exact absurd rfl hne
  | cons t rest =>
    have htclean : cleanText t := hclean t (List.mem_cons_self t rest)
    obtain ⟨d, r, hsl, hd⟩ := stepLine_head (i := 1) (by omega) (by omega) t
    rw [stateFrom_zero_cons rest 1 t (by omega)]
    unfold cleanupValid
    have hpre : ¬ ['\n', '\n'] <+: '\n' :: (stepLine 1 t ++ doubled 2 rest) := by
      intro hp
      obtain ⟨-, h2⟩ := List.cons_prefix_cons.mp hp
      rw [hsl] at h2
      obtain ⟨h3, -⟩ := List.cons_prefix_cons.mp h2
      exact (char_facts_of_isDigit hd).2.2.1 h3.symm
    have hstep : pyReplace ['\n', '\n'] ['\n'] ('\n' :: stepLine 1 t ++ doubled 2 rest) =
        '\n' :: (stepLine 1 t ++ singled 2 rest) := by
      rw [show ('\n' :: stepLine 1 t ++ doubled 2 rest : Str) =
          '\n' :: (stepLine 1 t ++ doubled 2 rest) by simp]
      rw [pyReplace_cons_neg _ hpre,
        replace_doubled rest (stepLine 1 t) 2 (by omega)
          (by simp only [List.length_cons] at hlen ⊢; omega)
          (newline_not_mem_stepLine fun c hc => (htclean.2.1 c hc).2.1)
          fun x hx => hclean x (List.mem_cons_of_mem t hx)]
    rw [hstep, List.dropWhile_cons_of_pos (by decide)]
    have hdrop : (stepLine 1 t ++ singled 2 rest).dropWhile (· == '\n') =
        stepLine 1 t ++ singled 2 rest := by
      rw [hsl]
      show ((d :: (r ++ singled 2 rest)).dropWhile (· == '\n')) = _
      rw [List.dropWhile_cons_of_neg (by
        simp only [beq_iff_eq]
        exact fun h => (char_facts_of_isDigit hd).2.2.1 h)]
      rfl
    rw [hdrop, ← renderFrom_cons_singled]

/-! ## Normalised-form and decimal lemmas -/

theorem digitCh_toNat {n : Nat} (h : n ≤ 9) : (digitCh n).toNat = 48 + n := by
  interval_cases n <;> decide

theorem digitsToNat_append (d : Str) (c : Char) :
    digitsToNat (d ++ [c]) = digitsToNat d * 10 + (c.toNat - 48) := by
  unfold digitsToNat
  rw [List.foldl_append]
  rfl

theorem digitsToNat_natDigits : ∀ n : Nat, digitsToNat (natDigits n) = n := by
  intro n
  induction n using Nat.strong_induction_on with
  | _ n ih =>
    rw [natDigits_eq]
    by_cases h : n < 10
    · rw [if_pos h]
      show (0 * 10 + ((digitCh n).toNat - 48)) = n
      rw [digitCh_toNat (by omega)]
      omega
    · rw [if_neg h, digitsToNat_append,
        ih (n / 10) (Nat.div_lt_self (by omega) (by omega)),
        digitCh_toNat (by omega : n % 10 ≤ 9)]
      omega

theorem takeWhile_append_not {p : Char → Bool} :
    ∀ {d : Str} {x : Char} {r : Str}, (∀ c ∈ d, p c = true) → p x = false →
      (d ++ x :: r).takeWhile p = d := by
  intro d
  induction d with
  | nil =>
    intro x r _ hx
    exact List.takeWhile_cons_of_neg (by simp [hx])
  | cons c cs ih =>
    intro x r h hx
    rw [List.cons_append,
      List.takeWhile_cons_of_pos (h c (List.mem_cons_self c cs)),
      ih (fun y hy => h y (List.mem_cons_of_mem c hy)) hx]

theorem leadNum_stepLine (i : Nat) (t : Str) : leadNum (stepLine i t) = some i := by
  unfold leadNum
  rw [if_pos (by simpa using matchesNumSpace_stepLine i t)]
  show some (digitsToNat ((natDigits i ++ '.' :: ' ' :: t).takeWhile Char.isDigit)) = some i
  rw [takeWhile_append_not (natDigits_all_digit i) (by decide)]
  rw [digitsToNat_natDigits]

theorem stepLine_ne_nil (i : Nat) (t : Str) : stepLine i t ≠ [] := by
  unfold stepLine
  simp [natDigits_ne_nil]

theorem ascending_linesOf : ∀ (ts : List Str) (k : Nat),
    ascendingFrom k (linesOf k ts) = true := by
  intro ts
  induction ts with
  | nil => intro k; rfl
  | cons t rest ih =>
    intro k
    show ascendingFrom k (stepLine k t :: linesOf (k + 1) rest) = true
    unfold ascendingFrom
    rw [matchesNumSpace_stepLine, leadNum_stepLine, ih (k + 1)]
    simp [stepLine_ne_nil]

theorem normalizedInvariant_renderSteps {ts : List Str} (hne : ts ≠ [])
    (hlen : ts.length ≤ 10) (hclean : ∀ t ∈ ts, cleanText t) :
    normalizedInvariant (renderSteps ts) = true := by
  unfold normalizedInvariant renderSteps
  rw [splitNL_renderFrom hne hlen hclean]
  exact ascending_linesOf ts 1

/-- C4 counterexample: four activity strings in the normalised form demanded
by the claim (each non-blank line a `^\d+\.\s` step, numbers ascending by 1
from 1, no blank lines) that `format_activity` does not return unchanged: an
embedded `"2. "` inside a step text, a trailing space, a tab after the
period, and an eleventh step. -/
theorem c4_counterexample :
    (normalizedInvariant "1. go 2. stop".toList = true ∧
      format_activity (.astr "1. go 2. stop".toList) ≠ "1. go 2. stop".toList) ∧
    (normalizedInvariant "1. a ".toList = true ∧
      format_activity (.astr "1. a ".toList) ≠ "1. a ".toList) ∧
    (normalizedInvariant "1.\ta".toList = true ∧
      format_activity (.astr "1.\ta".toList) ≠ "1.\ta".toList) ∧
    (normalizedInvariant
        "1. a\n2. b\n3. c\n4. d\n5. e\n6. f\n7. g\n8. h\n9. i\n10. j\n11. k".toList = true ∧
      format_activity
          (.astr "1. a\n2. b\n3. c\n4. d\n5. e\n6. f\n7. g\n8. h\n9. i\n10. j\n11. k".toList) ≠
        "1. a\n2. b\n3. c\n4. d\n5. e\n6. f\n7. g\n8. h\n9. i\n10. j\n11. k".toList) := by
  decide

/-- C4 as amended: `format_activity` is the identity on a normalised activity
string (`normalizedInvariant` holds of it) provided additionally that it has
at most 10 steps and each step text is clean — non-empty, stripped, free of
control characters/newlines, and without any embedded literal `"1. "` …
`"10. "` (`cleanText`); the counterexamples show each proviso is needed. -/
theorem c4_idempotent_clean (ts : List Str) (hne : ts ≠ []) (hlen : ts.length ≤ 10)
    (hclean : ∀ t ∈ ts, cleanText t) :
    normalizedInvariant (renderSteps ts) = true ∧
      format_activity (.astr (renderSteps ts)) = renderSteps ts := by
  refine ⟨normalizedInvariant_renderSteps hne hlen hclean, ?_⟩
  have hnorm : normalizeEolCtrl (toActivityString (.astr (renderSteps ts))) =
      renderFrom 1 ts := normalizeEolCtrl_renderFrom hclean
  have hval : validate_activity_format (renderFrom 1 ts) = true :=
    validate_renderFrom hne hlen hclean
  show format_activity (.astr (renderSteps ts)) = renderFrom 1 ts
  unfold format_activity
  simp only [hnorm, hval, if_true]
  rw [splitNL_renderFrom hne hlen hclean,
    firstLoopAux_zero _ (linesOf_ne_nil hne) (fun l hl => by
      have f := linesOf_facts ts 1 (by omega) (by omega) hclean l hl
      exact ⟨f.2.2.1, f.1, f.2.2.2.1, f.2.2.2.2⟩),
    ← renderFrom_eq_joinNL,
    numPass_renderFrom hne hlen hclean,
    cleanupValid_stateZero hne hlen hclean]

/-- C4 witness: a concrete two-step normalised activity string is a fixed
point of `format_activity`. -/
theorem c4_witness :
    normalizedInvariant (renderSteps ["go shopping".toList, "cook dinner".toList]) = true ∧
    format_activity (.astr (renderSteps ["go shopping".toList, "cook dinner".toList])) =
      renderSteps ["go shopping".toList, "cook dinner".toList] :=
  c4_idempotent_clean ["go shopping".toList, "cook dinner".toList] (by decide) (by decide)
    (by
      intro t ht
      rcases List.mem_cons.mp ht with rfl | ht
      · exact ⟨by decide, by decide, by decide, fun j h1 h10 => by
          interval_cases j <;> decide⟩
      · rcases List.mem_singleton.mp ht with rfl
        exact ⟨by decide, by decide, by decide, fun j h1 h10 => by
          interval_cases j <;> decide⟩)

end Roadmap
